import Mathlib

/-!
GetSecureGitHubStr: a verification development of `main.go`.

The program turns a repository name (or a GitHub URL) plus an account flag into a
credentialed clone URL.  This file embeds the functions of `main.go` in Lean:

* the two regular expressions of `parseRepoName` as values of a small regex syntax tree,
  run by a backtracking matcher with Go's leftmost-first preference order;
* `loadEnv` over an explicit file content (the `bufio.Scanner` line splitting, the trimming,
  the `SplitN` on the first '=', the quote stripping with its slice-bounds check);
* `loadAccountConfig` over the environment mapping;
* `flag.Parse` on the command line, for the two boolean flags, with the exits it makes
  itself;
* `main`: its body after `flag.Parse` as a function from the parsed flags, the positional
  arguments and the state of the two candidate config files to the exit status and
  standard output, and the whole of it, `program`, from the command line.

Go strings are modelled by their sequence of Unicode code points (`String` / `List Char`),
that is, the development covers inputs that are valid UTF-8.
-/

namespace SecureGit

/-! ## Regular expressions (the fragment of Go's `regexp` syntax used by `parseRepoName`) -/

/-- Regex syntax tree: the operators occurring in the two patterns of `parseRepoName`. -/
inductive Regex where
  /-- A single character satisfying the predicate (literal, `.`, or a character class). -/
  | sym (p : Char → Bool)
  /-- The empty pattern. -/
  | eps
  /-- Concatenation. -/
  | seq (a b : Regex)
  /-- Greedy `a?`: the branch taking `a` is preferred. -/
  | opt (a : Regex)
  /-- Greedy `a*`: one more iteration is preferred over leaving the loop. -/
  | star (a : Regex)
  /-- The capturing group (the patterns have exactly one, number 1). -/
  | group (a : Regex)
  /-- End of text, `$` without the multi-line flag. -/
  | eot

namespace Regex

/-- Literal character, such as `s` or `\.`. -/
def lit (c : Char) : Regex := sym (fun x => x == c)

/-- Go `.` without the `s` flag: any character except the newline. -/
def dot : Regex := sym (fun x => x != '\n')

/-- Negated class `[^...]`; in Go it also matches the newline. -/
def notIn (cs : List Char) : Regex := sym (fun x => !cs.contains x)

/-- Greedy `a+`, that is `a` followed by `a*`. -/
def plus (a : Regex) : Regex := seq a (star a)

/-- Concatenation of a list of patterns. -/
def cat : List Regex → Regex
  | [] => eps
  | r :: rs => seq r (cat rs)

/-- Literal string. -/
def str (s : String) : Regex := cat (s.data.map lit)

end Regex

/-- Matcher state: the text still to be read and the text of capture group 1, if set. -/
abbrev MState := List Char × Option (List Char)

/-- Loop of a greedy star: every way of running `body` repeatedly, more iterations first.
An iteration that consumes nothing is dropped, and `fuel` bounds the number of iterations
(the text length suffices, each kept iteration consuming at least one character). -/
def starLoop (body : MState → List MState) : Nat → MState → List MState
  | 0, st => [st]
  | fuel + 1, st =>
    ((body st).filter (fun st' => st'.1.length < st.1.length)).flatMap (starLoop body fuel) ++ [st]

/-- All the ways the pattern matches a prefix of the text in `st`, in the preference order of
a backtracking matcher (Go's leftmost-first semantics): the head of the list is the match
the engine reports.  Each result is the state after the match. -/
def Regex.run : Regex → MState → List MState
  | .sym p, st =>
    match st.1 with
    | [] => []
    | x :: xs => if p x then [(xs, st.2)] else []
  | .eps, st => [st]
  | .seq a b, st => (run a st).flatMap (fun st' => run b st')
  | .opt a, st => run a st ++ [st]
  | .star a, st => starLoop (fun st' => run a st') st.1.length st
  | .group a, st =>
    (run a st).map (fun st' => (st'.1, some (st.1.take (st.1.length - st'.1.length))))
  | .eot, st => if st.1 = [] then [st] else []

/-- The match of the pattern starting exactly at the beginning of `s`, as the slice
`[whole match, group 1]`, or the empty slice when there is none. -/
def Regex.matchAt (re : Regex) (s : List Char) : List (List Char) :=
  match re.run (s, none) with
  | [] => []
  | (rest, cap) :: _ => [s.take (s.length - rest.length), cap.getD []]

/-- Leftmost match over character lists: start positions are tried from left to right. -/
def Regex.find (re : Regex) : List Char → List (List Char)
  | [] => re.matchAt []
  | c :: t =>
    match re.matchAt (c :: t) with
    | [] => re.find t
    | m => m

/-- Go `(*Regexp).FindStringSubmatch`: the leftmost match and its submatch, `[]` for `nil`. -/
def Regex.FindStringSubmatch (re : Regex) (s : String) : List String :=
  (re.find s.data).map String.mk

/-- The pattern `https?://(?:.*@)?github\.com/(?:[^/]+)/([^/.]+)(?:\.git)?$`. -/
def httpRegex : Regex :=
  Regex.cat [.str "http", .opt (.lit 's'), .str "://", .opt (.seq (.star .dot) (.lit '@')),
    .str "github.com/", .plus (.notIn ['/']), .lit '/', .group (.plus (.notIn ['/', '.'])),
    .opt (.str ".git"), .eot]

/-- The pattern `git@github\.com:(?:[^/]+)/([^/.]+)(?:\.git)?$`. -/
def sshRegex : Regex :=
  Regex.cat [.str "git@github.com:", .plus (.notIn ['/']), .lit '/',
    .group (.plus (.notIn ['/', '.'])), .opt (.str ".git"), .eot]

/-- Go `parseRepoName`: the first pattern that matches gives its group 1, otherwise the
input is returned as it is. -/
def parseRepoName (input : String) : String :=
  let m := httpRegex.FindStringSubmatch input
  if m.length > 1 then m.getD 1 ""
  else
    let m := sshRegex.FindStringSubmatch input
    if m.length > 1 then m.getD 1 ""
    else input

/-! ## `loadEnv` -/

/-- The double quote character. -/
def dquote : Char := Char.ofNat 34

/-- The single quote character. -/
def squote : Char := Char.ofNat 39

/-- Go `unicode.IsSpace`: the characters `strings.TrimSpace` removes. -/
def isSpace (c : Char) : Bool :=
  let n := c.toNat
  (9 ≤ n && n ≤ 13) || n == 0x20 || n == 0x85 || n == 0xA0 || n == 0x1680 ||
    (0x2000 ≤ n && n ≤ 0x200A) || n == 0x2028 || n == 0x2029 || n == 0x202F ||
    n == 0x205F || n == 0x3000

/-- Go `strings.TrimSpace`: leading and trailing white space removed. -/
def TrimSpace (s : List Char) : List Char :=
  ((s.dropWhile isSpace).reverse.dropWhile isSpace).reverse

/-- Go `strings.HasPrefix`. -/
def HasPrefix (s pre : List Char) : Bool := pre.isPrefixOf s

/-- Go `strings.HasSuffix`. -/
def HasSuffix (s suf : List Char) : Bool := suf.reverse.isPrefixOf s.reverse

/-- Go `strings.SplitN(line, "=", 2)`: the text before and after the first '=', or the
line alone when it has no '='. -/
def SplitN2 : List Char → List (List Char)
  | [] => [[]]
  | c :: t =>
    if c = '=' then [[], t]
    else
      match SplitN2 t with
      | [k, v] => [c :: k, v]
      | _ => [c :: t]

/-- Go slice expression `s[lo:hi]` on a string; `none` is the run-time panic
"slice bounds out of range".  It is used here only with `lo` and `hi` next to
single-byte characters, where byte offsets and character offsets agree. -/
def goSlice (s : List Char) (lo hi : Nat) : Option (List Char) :=
  if lo ≤ hi ∧ hi ≤ s.length then some ((s.take hi).drop lo) else none

/-- Length in bytes of the UTF-8 encoding. -/
def byteLen (s : List Char) : Nat := (s.map Char.utf8Size).sum

/-- Go `bufio.MaxScanTokenSize`. -/
def MaxScanTokenSize : Nat := 64 * 1024

/-- The `dropCR` helper of `bufio.ScanLines`: one trailing carriage return is removed. -/
def dropCR (line : List Char) : List Char :=
  if line.getLast? = some '\r' then line.dropLast else line

/-- The tokens of a `bufio.Scanner` with the default `ScanLines` split function, and whether
scanning stopped with `ErrTooLong`.  `cur` is the part of the current line already read.  A
line is ended by '\n' or by the end of the file (a final empty line gives no token); a line
that does not fit the scanner's buffer of `MaxScanTokenSize` bytes stops the scan. -/
def scanLines : List Char → List Char → List (List Char) × Bool
  | [], cur =>
    if cur = [] then ([], false)
    else if MaxScanTokenSize ≤ byteLen cur then ([], true)
    else ([dropCR cur], false)
  | c :: rest, cur =>
    if c = '\n' then
      if MaxScanTokenSize ≤ byteLen cur then ([], true)
      else ((dropCR cur) :: (scanLines rest []).1, (scanLines rest []).2)
    else scanLines rest (cur ++ [c])

/-- The environment mapping, a Go `map[string]string`: lookup gives the value when the key
is present. -/
abbrev Env := String → Option String

/-- The empty mapping (also what reading from a `nil` map gives). -/
def Env.empty : Env := fun _ => none

/-- Go `env[key] = value`. -/
def Env.set (env : Env) (key value : String) : Env :=
  fun k => if k = key then some value else env k

/-- The quote stripping of `loadEnv`: a value that starts and ends with '"', or starts and
ends with a single quote, is replaced by `value[1 : len(value)-1]`; `none` when that slice
expression panics. -/
def stripQuotes (value : List Char) : Option (List Char) :=
  if (HasPrefix value [dquote] && HasSuffix value [dquote]) ||
      (HasPrefix value [squote] && HasSuffix value [squote]) then
    goSlice value 1 (value.length - 1)
  else some value

/-- One iteration of the scanning loop of `loadEnv` on the scanned text `text`; `none` when
the iteration panics. -/
def loadLine (env : Env) (text : List Char) : Option Env :=
  let line := TrimSpace text
  if line = [] || HasPrefix line ['#'] then some env
  else
    match SplitN2 line with
    | [p0, p1] =>
      let key := TrimSpace p0
      let value := TrimSpace p1
      match stripQuotes value with
      | none => none
      | some value => some (env.set (String.mk key) (String.mk value))
    | _ => some env

/-- The scanning loop of `loadEnv` over the scanned lines. -/
def loadLines : List (List Char) → Env → Option Env
  | [], env => some env
  | text :: rest, env =>
    match loadLine env text with
    | none => none
    | some env' => loadLines rest env'

/-- State of a candidate config file: it does not exist, it exists but cannot be opened,
or it can be read and has the given content. -/
inductive FileState where
  | absent
  | unreadable
  | readable (content : String)
  deriving DecidableEq

/-- The errors `loadEnv` can return (other read errors of the operating system are not
modelled). -/
inductive Error where
  /-- The error of `os.Open`. -/
  | openFailed
  /-- The error of `scanner.Err()`: `bufio.ErrTooLong`. -/
  | tokenTooLong
  deriving DecidableEq

/-- What a call of `loadEnv` does: it panics, or it returns a mapping and an error value
(`none` for `nil`). -/
inductive Loaded where
  | panicked
  | returned (env : Env) (err : Option Error)

/-- Go `loadEnv`, on the state of the file named by `filename`. -/
def loadEnv (file : FileState) : Loaded :=
  match file with
  | .absent => .returned Env.empty (some .openFailed)
  | .unreadable => .returned Env.empty (some .openFailed)
  | .readable content =>
    let scanned := scanLines content.data []
    match loadLines scanned.1 Env.empty with
    | none => .panicked
    | some env => .returned env (if scanned.2 then some .tokenTooLong else none)

/-! ## `loadAccountConfig` -/

/-- Go `Account`. -/
structure Account where
  Username : String
  Token : String
  deriving DecidableEq, Repr

/-- Go `AccountConfig`. -/
structure AccountConfig where
  WorkAccount : Account
  PersonalAccount : Account
  deriving DecidableEq, Repr

/-- The text of the error for an incomplete personal pair. -/
def personalMissing : String :=
  "missing personal account configuration: GITHUB_PERSONAL_USER and GITHUB_PERSONAL_TOKEN required"

/-- The text of the error for an incomplete work pair. -/
def workMissing : String :=
  "missing Work account configuration: GITHUB_WORK_USER and GITHUB_WORK_TOKEN required"

/-- Go `loadAccountConfig`: the personal pair is looked up and checked first, then the work
pair. -/
def loadAccountConfig (env : Env) : Except String AccountConfig :=
  match env "GITHUB_PERSONAL_USER", env "GITHUB_PERSONAL_TOKEN" with
  | some personalAccount, some personalAccountToken =>
    match env "GITHUB_WORK_USER", env "GITHUB_WORK_TOKEN" with
    | some workAccountUsername, some workAccountToken =>
      .ok { WorkAccount := { Username := workAccountUsername, Token := workAccountToken },
            PersonalAccount := { Username := personalAccount, Token := personalAccountToken } }
    | _, _ => .error workMissing
  | _, _ => .error personalMissing

/-! ## `main` -/

/-- What `main` observes of a run, once `flag.Parse` has returned: the two flags, the
positional arguments, and the state of `.secure-git.env` in the working directory and of the
file that the fallback path (next to the executable) names. -/
structure Run where
  personalAccountFlag : Bool
  workAccountFlag : Bool
  args : List String
  cwdEnvFile : FileState
  exeEnvFile : FileState

/-- How a run ends: the process exits with a status, or `main` dies of a run-time panic
(the Go runtime then ends the process with status 2); with what was written to standard
output. -/
inductive Outcome where
  | exit (status : Nat) (stdout : String)
  | panic (stdout : String)
  deriving DecidableEq, Repr

/-- The file `main` hands to `loadEnv`: `.secure-git.env` of the working directory unless
`os.Stat` reports that it does not exist, then the one next to the executable. -/
def envFile (r : Run) : FileState :=
  if r.cwdEnvFile = .absent then r.exeEnvFile else r.cwdEnvFile

/-- Go `fmt.Sprintf("https://%s@github.com/%s/%s.git", token, username, repoName)`. -/
def repoURL (token username repoName : String) : String :=
  "https://" ++ token ++ "@github.com/" ++ username ++ "/" ++ repoName ++ ".git"

/-- The body of Go `main` after `flag.Parse()` has returned (main.go:126-181), on the parsed
flags and positional arguments: exit status and standard output (the messages on the error
stream are not modelled).  The whole of `main`, with the exits inside `flag.Parse`, is
`program`. -/
def main (r : Run) : Outcome :=
  if r.workAccountFlag && r.personalAccountFlag then .exit 1 ""
  else if !r.workAccountFlag && !r.personalAccountFlag then .exit 1 ""
  else
    match r.args with
    | [arg] =>
      let repoName := parseRepoName arg
      match loadEnv (envFile r) with
      | .panicked => .panic ""
      | .returned _ (some _) => .exit 1 ""
      | .returned env none =>
        match loadAccountConfig env with
        | .error _ => .exit 1 ""
        | .ok config =>
          let selectedAccount :=
            if r.workAccountFlag then config.WorkAccount else config.PersonalAccount
          .exit 0 (repoURL selectedAccount.Token selectedAccount.Username repoName ++ "\n")
    | _ => .exit 1 ""

/-! ## Auxiliary definitions for the statements and proofs -/

/-- The part both patterns end with, `(?:[^/]+)/([^/.]+)(?:\.git)?$`. -/
def repoTail : Regex :=
  Regex.cat [Regex.plus (Regex.notIn ['/']), Regex.lit '/',
    Regex.group (Regex.plus (Regex.notIn ['/', '.'])), Regex.opt (Regex.str ".git"), Regex.eot]

/-- The text `s` is an owner segment, a slash, the repo segment `cap` and an optional
`.git`, as `repoTail` reads it. -/
def IsRepoTail (s cap : List Char) : Prop :=
  ∃ o g, s = o ++ '/' :: (cap ++ g) ∧ o ≠ [] ∧ '/' ∉ o ∧ cap ≠ [] ∧ '/' ∉ cap ∧ '.' ∉ cap ∧
    (g = [] ∨ g = ['.', 'g', 'i', 't'])

/-- The text `s` is matched from its first character by the HTTPS pattern, with `cap` as
group 1. -/
def IsHttpMatch (s cap : List Char) : Prop :=
  ∃ sOpt u t, s = "http".data ++ (sOpt ++ ("://".data ++ (u ++ ("github.com/".data ++ t)))) ∧
    (sOpt = [] ∨ sOpt = ['s']) ∧ (u = [] ∨ ∃ w, u = w ++ ['@'] ∧ '\n' ∉ w) ∧ IsRepoTail t cap

/-- The text `s` is matched from its first character by the SSH pattern, with `cap` as
group 1. -/
def IsSshMatch (s cap : List Char) : Prop :=
  ∃ t, s = "git@github.com:".data ++ t ∧ IsRepoTail t cap

/-- The content of a complete config file. -/
def sampleConfig : String :=
  "# accounts\n\nGITHUB_WORK_USER=\"alice\"\nGITHUB_WORK_TOKEN=wtok\nFOO\n" ++
    "GITHUB_PERSONAL_USER=bob\nGITHUB_PERSONAL_TOKEN=ptok\n"

/-- The mapping `loadEnv` builds from `sampleConfig`. -/
def sampleEnv : Env :=
  (((Env.empty.set "GITHUB_WORK_USER" "alice").set "GITHUB_WORK_TOKEN" "wtok").set
    "GITHUB_PERSONAL_USER" "bob").set "GITHUB_PERSONAL_TOKEN" "ptok"

/-- The content of a config file that lacks only `GITHUB_PERSONAL_TOKEN`. -/
def noPersonalTokenConfig : String :=
  "GITHUB_WORK_USER=alice\nGITHUB_WORK_TOKEN=wtok\nGITHUB_PERSONAL_USER=bob\n"

/-- The mapping `loadEnv` builds from `noPersonalTokenConfig`. -/
def noPersonalTokenEnv : Env :=
  ((Env.empty.set "GITHUB_WORK_USER" "alice").set "GITHUB_WORK_TOKEN" "wtok").set
    "GITHUB_PERSONAL_USER" "bob"

/-! ## Auxiliary definitions for the statements about `loadEnv` -/

/-- The lines of a file content: the texts between its newline characters. -/
def splitLines : List Char → List (List Char)
  | [] => [[]]
  | c :: rest =>
    if c = '\n' then [] :: splitLines rest
    else
      match splitLines rest with
      | l :: ls => (c :: l) :: ls
      | [] => [[c]]

/-- Lines put together again, with a newline character between two lines. -/
def joinLines : List (List Char) → List Char
  | [] => []
  | [l] => l
  | l :: l' :: ls => l ++ '\n' :: joinLines (l' :: ls)

/-- A blank line: it has white space only. -/
def isBlankLine (line : List Char) : Bool := line.all isSpace

/-- A comment line: its first character that is not white space is '#'. -/
def isCommentLine (line : List Char) : Bool := (line.dropWhile isSpace).head? == some '#'

/-- A line that contains no '='. -/
def hasNoEquals (line : List Char) : Bool := !line.contains '='

/-- The lines that the config file format ignores: blank lines, comment lines and lines
without '='. -/
def isIgnoredLine (line : List Char) : Bool :=
  isBlankLine line || isCommentLine line || hasNoEquals line

/-- The file content with every ignored line removed. -/
def removeIgnoredLines (content : String) : String :=
  String.mk (joinLines ((splitLines content.data).filter (fun l => !isIgnoredLine l)))

/-- The config file format, read off a line: an ignored line gives nothing; any other line
gives the key, the trimmed text before the first '=', and the value, the trimmed text after
the first '=' without one layer of surrounding quotes (nothing when the quote stripping
panics).  This follows the description of the format, to be compared with `loadLine`. -/
def lineEntry (line : List Char) : Option (String × String) :=
  if isIgnoredLine line then none
  else
    match stripQuotes (TrimSpace ((line.dropWhile (fun c => c != '=')).drop 1)) with
    | none => none
    | some value => some (String.mk (TrimSpace (line.takeWhile (fun c => c != '='))),
        String.mk value)

/-- A value in quotes: it starts and ends with '"', or starts and ends with a single
quote. -/
def IsQuoted (value : List Char) : Prop :=
  (value.head? = some dquote ∧ value.getLast? = some dquote) ∨
    (value.head? = some squote ∧ value.getLast? = some squote)

/-- A well-formed key of the config file format: trimmed, without '=', and not starting a
comment. -/
def IsKey (key : List Char) : Prop :=
  TrimSpace key = key ∧ '=' ∉ key ∧ key.head? ≠ some '#'

/-- A config file with ignored lines, a quoted value, a later '=' and a duplicate key. -/
def mixedConfig : String :=
  "# comment\n\n  \t\nFOO\nGITHUB_WORK_USER=\"alice\"\nA = b=c \r\nA='d'\n   # x=y\n"

/-- A config file in which every required key has an empty value. -/
def emptyValuesConfig : String :=
  "GITHUB_WORK_USER=\nGITHUB_WORK_TOKEN=\nGITHUB_PERSONAL_USER=\"\"\nGITHUB_PERSONAL_TOKEN=\n"

/-- The scanning loop of `loadEnv` over the lines of the file content: a line that does not
fit the scanner's buffer ends the load with `ErrTooLong`, a line on which the loop body
panics ends it with the panic, any other line updates the mapping. -/
def loadPieces : List (List Char) → Env → Loaded
  | [], env => .returned env none
  | p :: ps, env =>
    if MaxScanTokenSize ≤ byteLen p then .returned env (some .tokenTooLong)
    else
      match loadLine env p with
      | none => .panicked
      | some env' => loadPieces ps env'

/-- What `loadEnv` makes of the scanner's tokens and error flag. -/
def loadScanned (scanned : List (List Char) × Bool) (env : Env) : Loaded :=
  match loadLines scanned.1 env with
  | none => .panicked
  | some env' => .returned env' (if scanned.2 then some .tokenTooLong else none)

/-- A comment line of 65536 characters. -/
def longComment : String := String.mk (List.replicate 65536 '#')

/-- The mapping `loadEnv` builds from `mixedConfig`. -/
def mixedEnv : Env :=
  ((Env.empty.set "GITHUB_WORK_USER" "alice").set "A" "b=c").set "A" "d"

/-- The mapping `loadEnv` builds from `emptyValuesConfig`. -/
def emptyValuesEnv : Env :=
  (((Env.empty.set "GITHUB_WORK_USER" "").set "GITHUB_WORK_TOKEN" "").set
    "GITHUB_PERSONAL_USER" "").set "GITHUB_PERSONAL_TOKEN" ""

/-! ## `flag.Parse` and the whole of `main` -/

/-- Go `strconv.ParseBool`, by which a boolean flag reads the value of `-name=value`. -/
def ParseBool (value : String) : Option Bool :=
  if value ∈ ["1", "t", "T", "TRUE", "true", "True"] then some true
  else if value ∈ ["0", "f", "F", "FALSE", "false", "False"] then some false
  else none

/-- The name and the optional value of a flag argument without its dashes: the text is cut
at its first '=' that is not its first character. -/
def flagNameValue : List Char → List Char × Option (List Char)
  | [] => ([], none)
  | c :: rest =>
    if '=' ∈ rest then
      (c :: rest.takeWhile (fun x => x != '='),
        some ((rest.dropWhile (fun x => x != '=')).drop 1))
    else (c :: rest, none)

/-- How the call `flag.Parse()` of `main` ends: it returns, with the values of the two flags
and the positional arguments left, or it ends the process itself with an exit status (the
command-line flag set has `flag.ExitOnError`). -/
inductive FlagParse where
  | returned (personalAccountFlag workAccountFlag : Bool) (args : List String)
  | exited (status : Nat)
  deriving DecidableEq, Repr

/-- One flag argument of `flag.Parse`, from its text `name` without the dashes and the
values of the two flags so far: the new values, or the exit status with which the process
ends.  `p` and `w` set the flag to true and `p=value`, `w=value` to the boolean `value`.
Bad flag syntax, an undefined flag and a malformed boolean value print a message and the
usage text on the error stream and exit with status 2; the undefined flags `h` and `help`
print the usage text and exit with status 0. -/
def flagSet (name : List Char) (p w : Bool) : Except Nat (Bool × Bool) :=
  match name with
  | [] => .error 2
  | n0 :: _ =>
    if n0 = '-' ∨ n0 = '=' then .error 2
    else
      let nv := flagNameValue name
      if nv.1 = ['p'] then
        match nv.2 with
        | none => .ok (true, w)
        | some value =>
          match ParseBool (String.mk value) with
          | some b => .ok (b, w)
          | none => .error 2
      else if nv.1 = ['w'] then
        match nv.2 with
        | none => .ok (p, true)
        | some value =>
          match ParseBool (String.mk value) with
          | some b => .ok (p, b)
          | none => .error 2
      else if nv.1 = ['h'] ∨ nv.1 = ['h', 'e', 'l', 'p'] then .error 0
      else .error 2

/-- Go `flag.Parse` for the two boolean flags `p` and `w`, from the arguments still to read
and the values of the flags so far.  An argument that does not start with '-', the argument
`-`, and the end of the arguments stop the parsing; `--` stops it and is dropped.  A flag
has one or two dashes. -/
def flagParseFrom : List String → Bool → Bool → FlagParse
  | [], p, w => .returned p w []
  | s :: rest, p, w =>
    match s.data with
    | '-' :: c :: cs =>
      if c = '-' ∧ cs = [] then .returned p w rest
      else
        match flagSet (if c = '-' then cs else c :: cs) p w with
        | .error status => .exited status
        | .ok flags => flagParseFrom rest flags.1 flags.2
    | _ => .returned p w (s :: rest)

/-- Go `flag.Parse()` on the command line `argv` (`os.Args[1:]`); both flags start as
false. -/
def flagParse (argv : List String) : FlagParse := flagParseFrom argv false false

/-- Go `main` as a whole (main.go:108-182), from the command line and the state of the two
candidate config files: `flag.Parse()` first, which may end the process, then the body
`main` on the parsed flags and positional arguments.  The exits inside `flag.Parse` write
to the error stream only. -/
def program (argv : List String) (cwdEnvFile exeEnvFile : FileState) : Outcome :=
  match flagParse argv with
  | .exited status => .exit status ""
  | .returned personalAccountFlag workAccountFlag args =>
    main ⟨personalAccountFlag, workAccountFlag, args, cwdEnvFile, exeEnvFile⟩

/-- A config file with the line `A=1`, a line of 65536 characters, and the lines `A=2` and
`B=3`. -/
def longLineConfig : String :=
  String.mk ("A=1".data ++ '\n' :: (List.replicate 65536 'x' ++
    '\n' :: ("A=2".data ++ '\n' :: "B=3".data)))

/-! ## The matcher: the results of `run` -/

section RunLemmas

variable {s r : List Char} {c c' : Option (List Char)}

theorem mem_run_sym {p : Char → Bool} :
    (r, c') ∈ Regex.run (.sym p) (s, c) ↔ ∃ x, s = x :: r ∧ p x = true ∧ c' = c := by
  cases s with
  | nil => simp [Regex.run]
  | cons y ys =>
    by_cases hp : p y = true
    · simp only [Regex.run, hp, if_true, List.mem_singleton, Prod.mk.injEq, List.cons.injEq]
      constructor
      · rintro ⟨rfl, rfl⟩
        exact ⟨y, ⟨rfl, rfl⟩, hp, rfl⟩
      · rintro ⟨x, ⟨rfl, rfl⟩, _, rfl⟩
        exact ⟨rfl, rfl⟩
    · simp only [Regex.run, hp, List.cons.injEq]
      constructor
      · intro h
        simp at h
      · rintro ⟨x, ⟨rfl, rfl⟩, hx, _⟩
        exact absurd hx hp

theorem mem_run_lit {ch : Char} :
    (r, c') ∈ Regex.run (Regex.lit ch) (s, c) ↔ s = ch :: r ∧ c' = c := by
  unfold Regex.lit
  rw [mem_run_sym]
  constructor
  · rintro ⟨x, rfl, hx, rfl⟩
    simp at hx
    simp [hx]
  · rintro ⟨rfl, rfl⟩
    exact ⟨ch, rfl, by simp, rfl⟩

theorem mem_run_eps {st st' : MState} : st' ∈ Regex.run .eps st ↔ st' = st := by
  simp [Regex.run]

theorem mem_run_eot : (r, c') ∈ Regex.run .eot (s, c) ↔ s = [] ∧ r = [] ∧ c' = c := by
  by_cases h : s = []
  · subst h
    simp [Regex.run]
  · simp [Regex.run, h]

theorem mem_run_seq {a b : Regex} {st st'' : MState} :
    st'' ∈ Regex.run (.seq a b) st ↔ ∃ st', st' ∈ Regex.run a st ∧ st'' ∈ Regex.run b st' := by
  simp [Regex.run, List.mem_flatMap]

theorem mem_run_opt {a : Regex} {st st' : MState} :
    st' ∈ Regex.run (.opt a) st ↔ st' ∈ Regex.run a st ∨ st' = st := by
  simp [Regex.run]

theorem mem_run_group {a : Regex} :
    (r, c') ∈ Regex.run (.group a) (s, c) ↔
      (∃ c'', (r, c'') ∈ Regex.run a (s, c)) ∧ c' = some (s.take (s.length - r.length)) := by
  simp only [Regex.run, List.mem_map, Prod.mk.injEq, Prod.exists]
  constructor
  · rintro ⟨r', c'', hm, rfl, rfl⟩
    exact ⟨⟨c'', hm⟩, rfl⟩
  · rintro ⟨⟨c'', hm⟩, rfl⟩
    exact ⟨r, c'', hm, rfl, rfl⟩

/-- The star loop over a one-character pattern, with fuel enough for the text: the results
are the states after any prefix of characters that all satisfy the predicate. -/
theorem mem_starLoop_sym {p : Char → Bool} (n : Nat) :
    ∀ s : List Char, s.length ≤ n →
      ((r, c') ∈ starLoop (fun st' => Regex.run (.sym p) st') n (s, c) ↔
        ∃ pre, s = pre ++ r ∧ (∀ x ∈ pre, p x = true) ∧ c' = c) := by
  induction n with
  | zero =>
    intro s hs
    have : s = [] := List.length_eq_zero.mp (Nat.le_zero.mp hs)
    subst this
    simp only [starLoop, List.mem_singleton, Prod.mk.injEq]
    constructor
    · rintro ⟨rfl, rfl⟩
      exact ⟨[], rfl, by simp, rfl⟩
    · rintro ⟨pre, h, _, rfl⟩
      have := List.append_eq_nil.mp h.symm
      exact ⟨this.2, rfl⟩
  | succ n ih =>
    intro s hs
    cases s with
    | nil =>
      simp only [starLoop, Regex.run, List.filter_nil, List.flatMap_nil, List.nil_append,
        List.mem_singleton, Prod.mk.injEq]
      constructor
      · rintro ⟨rfl, rfl⟩
        exact ⟨[], rfl, by simp, rfl⟩
      · rintro ⟨pre, h, _, rfl⟩
        have := List.append_eq_nil.mp h.symm
        exact ⟨this.2, rfl⟩
    | cons y ys =>
      have hys : ys.length ≤ n := by simpa using hs
      by_cases hp : p y = true
      · have hrun : Regex.run (.sym p) (y :: ys, c) = [(ys, c)] := by simp [Regex.run, hp]
        simp only [starLoop, hrun, List.filter_cons, List.length_cons, Nat.lt_succ_self,
          decide_True, if_true, List.filter_nil, List.flatMap_cons, List.flatMap_nil,
          List.append_nil, List.mem_append, List.mem_singleton, Prod.mk.injEq, ih ys hys]
        constructor
        · rintro (⟨pre, rfl, hall, rfl⟩ | ⟨rfl, rfl⟩)
          · refine ⟨y :: pre, rfl, ?_, rfl⟩
            intro x hx
            rcases List.mem_cons.mp hx with rfl | hx
            · exact hp
            · exact hall x hx
          · exact ⟨[], rfl, by simp, rfl⟩
        · rintro ⟨pre, h, hall, rfl⟩
          cases pre with
          | nil => exact Or.inr ⟨h.symm, rfl⟩
          | cons z zs =>
            simp only [List.cons_append, List.cons.injEq] at h
            refine Or.inl ⟨zs, h.2, ?_, rfl⟩
            intro x hx
            exact hall x (List.mem_cons_of_mem _ hx)
      · have hrun : Regex.run (.sym p) (y :: ys, c) = [] := by simp [Regex.run, hp]
        simp only [starLoop, hrun, List.filter_nil, List.flatMap_nil, List.nil_append,
          List.mem_singleton, Prod.mk.injEq]
        constructor
        · rintro ⟨rfl, rfl⟩
          exact ⟨[], rfl, by simp, rfl⟩
        · rintro ⟨pre, h, hall, rfl⟩
          cases pre with
          | nil => exact ⟨h.symm, rfl⟩
          | cons z zs =>
            simp only [List.cons_append, List.cons.injEq] at h
            exact absurd (h.1 ▸ hall z (List.mem_cons_self _ _)) hp

theorem mem_run_star_sym {p : Char → Bool} :
    (r, c') ∈ Regex.run (.star (.sym p)) (s, c) ↔
      ∃ pre, s = pre ++ r ∧ (∀ x ∈ pre, p x = true) ∧ c' = c := by
  simp only [Regex.run]
  exact mem_starLoop_sym s.length s (Nat.le_refl _)

theorem mem_run_plus_sym {p : Char → Bool} :
    (r, c') ∈ Regex.run (Regex.plus (.sym p)) (s, c) ↔
      ∃ pre, pre ≠ [] ∧ s = pre ++ r ∧ (∀ x ∈ pre, p x = true) ∧ c' = c := by
  unfold Regex.plus
  rw [mem_run_seq]
  constructor
  · rintro ⟨⟨r1, c1⟩, h1, h2⟩
    obtain ⟨x, rfl, hx, rfl⟩ := mem_run_sym.mp h1
    obtain ⟨pre, rfl, hall, rfl⟩ := mem_run_star_sym.mp h2
    refine ⟨x :: pre, by simp, rfl, ?_, rfl⟩
    intro z hz
    rcases List.mem_cons.mp hz with rfl | hz
    · exact hx
    · exact hall z hz
  · rintro ⟨pre, hne, rfl, hall, rfl⟩
    cases pre with
    | nil => exact absurd rfl hne
    | cons z zs =>
      refine ⟨(zs ++ r, _), mem_run_sym.mpr ⟨z, rfl, hall z (List.mem_cons_self _ _), rfl⟩, ?_⟩
      exact mem_run_star_sym.mpr ⟨zs, rfl, fun x hx => hall x (List.mem_cons_of_mem _ hx), rfl⟩

theorem mem_run_cat_lits (l : List Char) :
    ∀ s : List Char, ((r, c') ∈ Regex.run (Regex.cat (l.map Regex.lit)) (s, c) ↔
      s = l ++ r ∧ c' = c) := by
  induction l with
  | nil =>
    intro s
    simp only [List.map_nil, Regex.cat, mem_run_eps, Prod.mk.injEq, List.nil_append]
    constructor
    · rintro ⟨rfl, rfl⟩
      exact ⟨rfl, rfl⟩
    · rintro ⟨rfl, rfl⟩
      exact ⟨rfl, rfl⟩
  | cons x xs ih =>
    intro s
    simp only [List.map_cons, Regex.cat, mem_run_seq, Prod.exists, List.cons_append]
    constructor
    · rintro ⟨r1, c1, h1, h2⟩
      obtain ⟨rfl, rfl⟩ := mem_run_lit.mp h1
      obtain ⟨rfl, rfl⟩ := (ih r1).mp h2
      exact ⟨rfl, rfl⟩
    · rintro ⟨rfl, rfl⟩
      exact ⟨xs ++ r, c', mem_run_lit.mpr ⟨rfl, rfl⟩, (ih _).mpr ⟨rfl, rfl⟩⟩

theorem mem_run_str {l : String} :
    (r, c') ∈ Regex.run (Regex.str l) (s, c) ↔ s = l.data ++ r ∧ c' = c :=
  mem_run_cat_lits l.data s

end RunLemmas

/-! ## The two patterns -/

theorem mem_run_repoTail {s r : List Char} {c c' : Option (List Char)} :
    (r, c') ∈ Regex.run repoTail (s, c) ↔ ∃ cap, IsRepoTail s cap ∧ r = [] ∧ c' = some cap := by
  simp only [repoTail, Regex.cat, Regex.notIn, mem_run_seq, mem_run_plus_sym, mem_run_lit,
    mem_run_group, mem_run_opt, mem_run_str, mem_run_eot, mem_run_eps, Prod.exists,
    Prod.mk.injEq, IsRepoTail]
  constructor
  · rintro ⟨a, b, ⟨o, hne, rfl, ho, rfl⟩, a1, b1, ⟨rfl, rfl⟩, a2, b2,
      ⟨⟨c'', cap, hcne, rfl, hcap, rfl⟩, rfl⟩, a3, b3, hopt, a4, b4, ⟨rfl, rfl, rfl⟩, rfl, rfl⟩
    have htake : List.take ((cap ++ a2).length - a2.length) (cap ++ a2) = cap := by simp
    refine ⟨cap, ⟨o, a2, rfl, hne, ?_, hcne, ?_, ?_, ?_⟩, rfl, ?_⟩
    · intro hm
      simpa using ho _ hm
    · intro hm
      simpa using hcap _ hm
    · intro hm
      simpa using hcap _ hm
    · rcases hopt with ⟨h, _⟩ | ⟨h, _⟩
      · exact Or.inr (by simpa using h)
      · exact Or.inl h.symm
    · rcases hopt with ⟨_, h⟩ | ⟨_, h⟩ <;> rw [h, htake]
  · rintro ⟨cap, ⟨o, g, rfl, hne, ho, hcne, hc1, hc2, hg⟩, rfl, rfl⟩
    have htake : List.take ((cap ++ g).length - g.length) (cap ++ g) = cap := by simp
    refine ⟨'/' :: (cap ++ g), c, ⟨o, hne, rfl, ?_, rfl⟩, cap ++ g, c, ⟨rfl, rfl⟩, g, some cap,
      ⟨⟨c, cap, hcne, rfl, ?_, rfl⟩, congrArg some htake.symm⟩, [], some cap, ?_, [], some cap,
      ⟨rfl, rfl, rfl⟩, rfl, rfl⟩
    · intro x hx
      have : x ≠ '/' := fun h => ho (h ▸ hx)
      simpa using this
    · intro x hx
      have h1 : x ≠ '/' := fun h => hc1 (h ▸ hx)
      have h2 : x ≠ '.' := fun h => hc2 (h ▸ hx)
      simp [h1, h2]
    · rcases hg with rfl | rfl
      · exact Or.inr ⟨rfl, rfl⟩
      · exact Or.inl ⟨rfl, rfl⟩

theorem httpRegex_unfold :
    httpRegex = .seq (Regex.str "http") (.seq (.opt (Regex.lit 's')) (.seq (Regex.str "://")
      (.seq (.opt (.seq (.star Regex.dot) (Regex.lit '@')))
        (.seq (Regex.str "github.com/") repoTail)))) := rfl

theorem sshRegex_unfold : sshRegex = .seq (Regex.str "git@github.com:") repoTail := rfl

theorem mem_run_httpRegex {s r : List Char} {c c' : Option (List Char)} :
    (r, c') ∈ Regex.run httpRegex (s, c) ↔ ∃ cap, IsHttpMatch s cap ∧ r = [] ∧ c' = some cap := by
  simp only [httpRegex_unfold, Regex.dot, mem_run_seq, mem_run_star_sym, mem_run_lit,
    mem_run_opt, mem_run_str, mem_run_repoTail, Prod.exists, Prod.mk.injEq, IsHttpMatch]
  constructor
  · rintro ⟨a, b, ⟨rfl, rfl⟩, a1, b1, (⟨rfl, rfl⟩ | ⟨rfl, rfl⟩), a2, b2, ⟨rfl, rfl⟩, a3, b3,
      (⟨a4, b4, ⟨w, rfl, hw, rfl⟩, rfl, rfl⟩ | ⟨rfl, rfl⟩), a5, b5, ⟨rfl, rfl⟩, cap, hcap,
      rfl, rfl⟩
    · refine ⟨cap, ⟨['s'], w ++ ['@'], a5, by simp, Or.inr rfl, Or.inr ⟨w, rfl, ?_⟩, hcap⟩,
        rfl, rfl⟩
      intro hm
      simpa using hw _ hm
    · exact ⟨cap, ⟨['s'], [], a5, by simp, Or.inr rfl, Or.inl rfl, hcap⟩, rfl, rfl⟩
    · refine ⟨cap, ⟨[], w ++ ['@'], a5, by simp, Or.inl rfl, Or.inr ⟨w, rfl, ?_⟩, hcap⟩,
        rfl, rfl⟩
      intro hm
      simpa using hw _ hm
    · exact ⟨cap, ⟨[], [], a5, by simp, Or.inl rfl, Or.inl rfl, hcap⟩, rfl, rfl⟩
  · rintro ⟨cap, ⟨sOpt, u, t, rfl, hs, hu, hcap⟩, rfl, rfl⟩
    refine ⟨_, c, ⟨rfl, rfl⟩, "://".data ++ (u ++ ("github.com/".data ++ t)), c, ?_,
      u ++ ("github.com/".data ++ t), c, ⟨rfl, rfl⟩, "github.com/".data ++ t, c, ?_, t, c,
      ⟨rfl, rfl⟩, cap, hcap, rfl, rfl⟩
    · rcases hs with rfl | rfl
      · exact Or.inr ⟨rfl, rfl⟩
      · exact Or.inl ⟨rfl, rfl⟩
    · rcases hu with rfl | ⟨w, rfl, hw⟩
      · exact Or.inr ⟨rfl, rfl⟩
      · refine Or.inl ⟨'@' :: ("github.com/".data ++ t), c, ⟨w, by simp, ?_, rfl⟩, rfl, rfl⟩
        intro x hx
        have : x ≠ '\n' := fun h => hw (h ▸ hx)
        simpa using this

theorem mem_run_sshRegex {s r : List Char} {c c' : Option (List Char)} :
    (r, c') ∈ Regex.run sshRegex (s, c) ↔ ∃ cap, IsSshMatch s cap ∧ r = [] ∧ c' = some cap := by
  simp only [sshRegex_unfold, mem_run_seq, mem_run_str, mem_run_repoTail, Prod.exists,
    IsSshMatch]
  constructor
  · rintro ⟨a, b, ⟨rfl, rfl⟩, cap, h, rfl, rfl⟩
    exact ⟨cap, ⟨a, rfl, h⟩, rfl, rfl⟩
  · rintro ⟨cap, ⟨t, rfl, h⟩, rfl, rfl⟩
    exact ⟨t, c, ⟨rfl, rfl⟩, cap, h, rfl, rfl⟩

/-! ## The leftmost search -/

theorem matchAt_eq_nil {re : Regex} {s : List Char} :
    re.matchAt s = [] ↔ re.run (s, none) = [] := by
  unfold Regex.matchAt
  cases h : re.run (s, none) with
  | nil => simp
  | cons st tl => simp

theorem find_eq_nil_iff {re : Regex} :
    ∀ s : List Char, re.find s = [] ↔ ∀ t, t <:+ s → re.run (t, none) = [] := by
  intro s
  induction s with
  | nil =>
    simp only [Regex.find, matchAt_eq_nil, List.suffix_nil]
    constructor
    · rintro h t rfl
      exact h
    · intro h
      exact h [] rfl
  | cons x xs ih =>
    cases hm : re.matchAt (x :: xs) with
    | nil =>
      have hfind : re.find (x :: xs) = re.find xs := by simp [Regex.find, hm]
      rw [hfind, ih]
      constructor
      · intro h t ht
        rcases List.suffix_cons_iff.mp ht with rfl | ht
        · exact matchAt_eq_nil.mp hm
        · exact h t ht
      · intro h t ht
        exact h t (List.suffix_cons_iff.mpr (Or.inr ht))
    | cons m ms =>
      have hfind : re.find (x :: xs) = m :: ms := by simp [Regex.find, hm]
      rw [hfind]
      constructor
      · intro h
        exact absurd h (by simp)
      · intro h
        have := matchAt_eq_nil.mpr (h (x :: xs) (List.suffix_refl _))
        rw [hm] at this
        exact absurd this (by simp)

theorem matchAt_spec (re : Regex) (s : List Char) :
    re.matchAt s = [] ∨ ∃ rest cap, (rest, cap) ∈ re.run (s, none) ∧
      re.matchAt s = [s.take (s.length - rest.length), cap.getD []] := by
  unfold Regex.matchAt
  cases h : re.run (s, none) with
  | nil => exact Or.inl rfl
  | cons st tl =>
    obtain ⟨rest, cap⟩ := st
    exact Or.inr ⟨rest, cap, List.mem_cons_self _ _, rfl⟩

/-- A match reported by the leftmost search is a result of `run` at some suffix of the text. -/
theorem find_spec (re : Regex) :
    ∀ s : List Char, re.find s = [] ∨ ∃ t rest cap, t <:+ s ∧ (rest, cap) ∈ re.run (t, none) ∧
      re.find s = [t.take (t.length - rest.length), cap.getD []] := by
  intro s
  induction s with
  | nil =>
    rcases matchAt_spec re [] with h | ⟨rest, cap, hmem, h⟩
    · exact Or.inl (by simp [Regex.find, h])
    · exact Or.inr ⟨[], rest, cap, List.suffix_refl _, hmem, by simp [Regex.find, h]⟩
  | cons x xs ih =>
    rcases matchAt_spec re (x :: xs) with h | ⟨rest, cap, hmem, h⟩
    · have hfind : re.find (x :: xs) = re.find xs := by simp [Regex.find, h]
      rw [hfind]
      rcases ih with h' | ⟨t, rest, cap, hsuf, hmem, h'⟩
      · exact Or.inl h'
      · exact Or.inr ⟨t, rest, cap, List.suffix_cons_iff.mpr (Or.inr hsuf), hmem, h'⟩
    · refine Or.inr ⟨x :: xs, rest, cap, List.suffix_refl _, hmem, ?_⟩
      simp only [Regex.find, h]

/-! ## `parseRepoName`: the three ways it returns -/

/-- Either no pattern matches and the input is returned, or the HTTPS pattern matches a
suffix of the input and its group is returned, or the HTTPS pattern matches nowhere, the SSH
pattern matches a suffix and its group is returned. -/
theorem parseRepoName_cases (input : String) :
    (httpRegex.find input.data = [] ∧ sshRegex.find input.data = [] ∧
        parseRepoName input = input) ∨
      (∃ t cap, t <:+ input.data ∧ IsHttpMatch t cap ∧ parseRepoName input = String.mk cap) ∨
      (httpRegex.find input.data = [] ∧
        ∃ t cap, t <:+ input.data ∧ IsSshMatch t cap ∧ parseRepoName input = String.mk cap) := by
  rcases find_spec httpRegex input.data with h | ⟨t, rest, cap, hsuf, hmem, h⟩
  · rcases find_spec sshRegex input.data with h' | ⟨t, rest, cap, hsuf, hmem, h'⟩
    · exact Or.inl ⟨h, h', by simp [parseRepoName, Regex.FindStringSubmatch, h, h']⟩
    · obtain ⟨cap', hm, rfl, rfl⟩ := mem_run_sshRegex.mp hmem
      exact Or.inr (Or.inr ⟨h, t, cap', hsuf, hm,
        by simp [parseRepoName, Regex.FindStringSubmatch, h, h']⟩)
  · obtain ⟨cap', hm, rfl, rfl⟩ := mem_run_httpRegex.mp hmem
    exact Or.inr (Or.inl ⟨t, cap', hsuf, hm,
      by simp [parseRepoName, Regex.FindStringSubmatch, h]⟩)

theorem http_find_ne_nil {s t cap : List Char} (hsuf : t <:+ s) (hm : IsHttpMatch t cap) :
    httpRegex.find s ≠ [] := by
  intro h
  have := (find_eq_nil_iff s).mp h t hsuf
  have hmem : (([] : List Char), some cap) ∈ Regex.run httpRegex (t, none) :=
    mem_run_httpRegex.mpr ⟨cap, hm, rfl, rfl⟩
  rw [this] at hmem
  exact absurd hmem (List.not_mem_nil _)

theorem ssh_find_ne_nil {s t cap : List Char} (hsuf : t <:+ s) (hm : IsSshMatch t cap) :
    sshRegex.find s ≠ [] := by
  intro h
  have := (find_eq_nil_iff s).mp h t hsuf
  have hmem : (([] : List Char), some cap) ∈ Regex.run sshRegex (t, none) :=
    mem_run_sshRegex.mpr ⟨cap, hm, rfl, rfl⟩
  rw [this] at hmem
  exact absurd hmem (List.not_mem_nil _)

theorem http_find_eq_nil {s : List Char} (h : ∀ t cap, t <:+ s → ¬ IsHttpMatch t cap) :
    httpRegex.find s = [] := by
  rcases find_spec httpRegex s with h' | ⟨t, rest, cap, hsuf, hmem, _⟩
  · exact h'
  · obtain ⟨cap', hm, _, _⟩ := mem_run_httpRegex.mp hmem
    exact absurd hm (h t cap' hsuf)

theorem ssh_find_eq_nil {s : List Char} (h : ∀ t cap, t <:+ s → ¬ IsSshMatch t cap) :
    sshRegex.find s = [] := by
  rcases find_spec sshRegex s with h' | ⟨t, rest, cap, hsuf, hmem, _⟩
  · exact h'
  · obtain ⟨cap', hm, _, _⟩ := mem_run_sshRegex.mp hmem
    exact absurd hm (h t cap' hsuf)

/-- When some suffix is matched by one of the patterns and every match of a suffix has the
same group `repo`, `parseRepoName` returns `repo`. -/
theorem parseRepoName_eq_of_unique {input : String} {repo : List Char}
    (hex : ∃ t cap, t <:+ input.data ∧ (IsHttpMatch t cap ∨ IsSshMatch t cap))
    (huniq : ∀ t cap, t <:+ input.data → IsHttpMatch t cap ∨ IsSshMatch t cap → cap = repo) :
    parseRepoName input = String.mk repo := by
  rcases parseRepoName_cases input with ⟨h1, h2, _⟩ | ⟨t, cap, hsuf, hm, h⟩ |
      ⟨_, t, cap, hsuf, hm, h⟩
  · obtain ⟨t, cap, hsuf, hm | hm⟩ := hex
    · exact absurd h1 (http_find_ne_nil hsuf hm)
    · exact absurd h2 (ssh_find_ne_nil hsuf hm)
  · rw [h, huniq t cap hsuf (Or.inl hm)]
  · rw [h, huniq t cap hsuf (Or.inr hm)]

/-- When no suffix is matched by either pattern, the input is returned. -/
theorem parseRepoName_eq_self_of_no_match {input : String}
    (h : ∀ t cap, t <:+ input.data → ¬ IsHttpMatch t cap ∧ ¬ IsSshMatch t cap) :
    parseRepoName input = input := by
  rcases parseRepoName_cases input with ⟨_, _, h'⟩ | ⟨t, cap, hsuf, hm, _⟩ |
      ⟨_, t, cap, hsuf, hm, _⟩
  · exact h'
  · exact absurd hm (h t cap hsuf).1
  · exact absurd hm (h t cap hsuf).2

/-! ## Splitting a text at a character -/

/-- A text splits in only one way at the last occurrence of a character. -/
theorem last_split_unique {a : Char} :
    ∀ (l₁ l₂ r₁ r₂ : List Char), l₁ ++ a :: r₁ = l₂ ++ a :: r₂ → a ∉ r₁ → a ∉ r₂ →
      l₁ = l₂ ∧ r₁ = r₂ := by
  intro l₁
  induction l₁ with
  | nil =>
    intro l₂ r₁ r₂ h h1 h2
    cases l₂ with
    | nil =>
      simp only [List.nil_append, List.cons.injEq, true_and] at h
      exact ⟨rfl, h⟩
    | cons y ys =>
      simp only [List.nil_append, List.cons_append, List.cons.injEq] at h
      exact absurd (h.2 ▸ (by simp : a ∈ ys ++ a :: r₂)) h1
  | cons x xs ih =>
    intro l₂ r₁ r₂ h h1 h2
    cases l₂ with
    | nil =>
      simp only [List.nil_append, List.cons_append, List.cons.injEq] at h
      exact absurd (h.2 ▸ (by simp : a ∈ xs ++ a :: r₁)) h2
    | cons y ys =>
      simp only [List.cons_append, List.cons.injEq] at h
      obtain ⟨rfl, h⟩ := h
      obtain ⟨rfl, rfl⟩ := ih ys r₁ r₂ h h1 h2
      exact ⟨rfl, rfl⟩

/-- A text splits in only one way at the first occurrence of a character. -/
theorem first_split_unique {a : Char} :
    ∀ (l₁ l₂ r₁ r₂ : List Char), l₁ ++ a :: r₁ = l₂ ++ a :: r₂ → a ∉ l₁ → a ∉ l₂ →
      l₁ = l₂ ∧ r₁ = r₂ := by
  intro l₁
  induction l₁ with
  | nil =>
    intro l₂ r₁ r₂ h h1 h2
    cases l₂ with
    | nil =>
      simp only [List.nil_append, List.cons.injEq, true_and] at h
      exact ⟨rfl, h⟩
    | cons y ys =>
      simp only [List.nil_append, List.cons_append, List.cons.injEq] at h
      exact absurd (h.1 ▸ List.mem_cons_self _ _) h2
  | cons x xs ih =>
    intro l₂ r₁ r₂ h h1 h2
    cases l₂ with
    | nil =>
      simp only [List.nil_append, List.cons_append, List.cons.injEq] at h
      exact absurd (h.1 ▸ List.mem_cons_self _ _) h1
    | cons y ys =>
      simp only [List.cons_append, List.cons.injEq] at h
      obtain ⟨rfl, h⟩ := h
      obtain ⟨rfl, rfl⟩ := ih ys r₁ r₂ h (fun hm => h1 (List.mem_cons_of_mem _ hm))
        (fun hm => h2 (List.mem_cons_of_mem _ hm))
      exact ⟨rfl, rfl⟩

/-- In a text that ends with a slash, `rest`, where `rest` has no slash, the repo segment a
pattern reads, with its optional `.git`, is all of `rest`. -/
theorem isRepoTail_rest_eq {s X rest t cap : List Char} (hs : s = X ++ '/' :: rest)
    (hrest : '/' ∉ rest) (hsuf : t <:+ s) (ht : IsRepoTail t cap) :
    (cap ++ [] = rest ∨ cap ++ ['.', 'g', 'i', 't'] = rest) ∧ cap ≠ [] ∧ '.' ∉ cap ∧
      ∃ o, o ≠ [] ∧ '/' ∉ o ∧ o <:+ X := by
  obtain ⟨o, g, rfl, hone, ho, hcne, hc1, hc2, hg⟩ := ht
  obtain ⟨pre, hpre⟩ := hsuf
  have hno : '/' ∉ cap ++ g := by
    rcases hg with rfl | rfl
    · simpa using hc1
    · simpa using hc1
  have heq : (pre ++ o) ++ '/' :: (cap ++ g) = X ++ '/' :: rest := by
    rw [← hs, ← hpre]
    simp
  obtain ⟨hX, hr⟩ := last_split_unique _ _ _ _ heq hno hrest
  refine ⟨?_, hcne, hc2, o, hone, ho, ⟨pre, hX⟩⟩
  rcases hg with rfl | rfl
  · exact Or.inl hr
  · exact Or.inr hr

/-- The group of any match at a suffix of `X/repo` or `X/repo.git` is `repo`. -/
theorem isRepoTail_cap_eq {s X repo g t cap : List Char} (hs : s = X ++ '/' :: (repo ++ g))
    (h1 : '/' ∉ repo) (h2 : '.' ∉ repo) (hg : g = [] ∨ g = ['.', 'g', 'i', 't'])
    (hsuf : t <:+ s) (ht : IsRepoTail t cap) : cap = repo := by
  have hrest : '/' ∉ repo ++ g := by
    rcases hg with rfl | rfl
    · simpa using h1
    · simpa using h1
  obtain ⟨h, _, hc2, _⟩ := isRepoTail_rest_eq hs hrest hsuf ht
  rcases hg with rfl | rfl <;> rcases h with h | h
  · simpa using h
  · have : '.' ∈ repo := by
      have h' : repo = cap ++ ['.', 'g', 'i', 't'] := by simpa using h.symm
      rw [h']
      simp
    exact absurd this h2
  · have : '.' ∈ cap := by
      have h' : cap = repo ++ ['.', 'g', 'i', 't'] := by simpa using h
      rw [h']
      simp
    exact absurd this hc2
  · exact List.append_cancel_right h

theorem isHttpMatch_tail {t cap : List Char} (h : IsHttpMatch t cap) :
    ∃ t', t' <:+ t ∧ IsRepoTail t' cap := by
  obtain ⟨sOpt, u, t', rfl, _, _, ht⟩ := h
  refine ⟨t', ⟨"http".data ++ (sOpt ++ ("://".data ++ (u ++ "github.com/".data))), ?_⟩, ht⟩
  simp

theorem isSshMatch_tail {t cap : List Char} (h : IsSshMatch t cap) :
    ∃ t', t' <:+ t ∧ IsRepoTail t' cap := by
  obtain ⟨t', rfl, ht⟩ := h
  exact ⟨t', ⟨"git@github.com:".data, rfl⟩, ht⟩

theorem match_tail {s t cap : List Char} (hsuf : t <:+ s)
    (h : IsHttpMatch t cap ∨ IsSshMatch t cap) : ∃ t', t' <:+ s ∧ IsRepoTail t' cap := by
  rcases h with h | h
  · obtain ⟨t', ht', h'⟩ := isHttpMatch_tail h
    exact ⟨t', ht'.trans hsuf, h'⟩
  · obtain ⟨t', ht', h'⟩ := isSshMatch_tail h
    exact ⟨t', ht'.trans hsuf, h'⟩

theorem data_ne_nil {s : String} (h : s ≠ "") : s.data ≠ [] := by
  intro h'
  apply h
  cases s
  simp_all

/-- When one of the patterns matches the whole input `X/repo` or `X/repo.git`, where `repo`
has no '/' and no '.', `parseRepoName` returns `repo`. -/
theorem parseRepoName_of_match {input : String} {X repo g : List Char}
    (hdata : input.data = X ++ '/' :: (repo ++ g)) (hr1 : '/' ∉ repo) (hr2 : '.' ∉ repo)
    (hg : g = [] ∨ g = ['.', 'g', 'i', 't'])
    (hm : IsHttpMatch input.data repo ∨ IsSshMatch input.data repo) :
    parseRepoName input = String.mk repo := by
  apply parseRepoName_eq_of_unique
  · exact ⟨_, repo, List.suffix_refl _, hm⟩
  · intro t cap hsuf hm'
    obtain ⟨t', ht', h'⟩ := match_tail hsuf hm'
    exact isRepoTail_cap_eq hdata hr1 hr2 hg ht' h'

/-! ## Theorems about `parseRepoName` -/

/-- C5: an HTTPS-form URL (scheme `http://` or `https://`, optional `user@` with no newline
in `user`, `github.com/`, a non-empty owner without '/', a non-empty repo without '/' and
'.', optional `.git`) is normalised to its repo segment. -/
theorem parseRepoName_https_url (scheme user owner repo : String) (withUser dotGit : Bool)
    (hscheme : scheme = "http://" ∨ scheme = "https://")
    (huser : '\n' ∉ user.data)
    (howner : owner ≠ "" ∧ '/' ∉ owner.data)
    (hrepo : repo ≠ "" ∧ '/' ∉ repo.data ∧ '.' ∉ repo.data) :
    parseRepoName (scheme ++ (if withUser then user ++ "@" else "") ++
      "github.com/" ++ owner ++ "/" ++ repo ++ (if dotGit then ".git" else "")) = repo := by
  obtain ⟨hone, ho⟩ := howner
  obtain ⟨hrne, hr1, hr2⟩ := hrepo
  have hg : (if dotGit then ".git" else "").data = [] ∨
      (if dotGit then ".git" else "").data = ['.', 'g', 'i', 't'] := by
    cases dotGit <;> simp
  generalize (if dotGit then ".git" else "") = g at hg ⊢
  have hu : (if withUser then user ++ "@" else "").data = [] ∨
      ∃ w, (if withUser then user ++ "@" else "").data = w ++ ['@'] ∧ '\n' ∉ w := by
    cases withUser with
    | false => exact Or.inl rfl
    | true => exact Or.inr ⟨user.data, by simp, huser⟩
  generalize (if withUser then user ++ "@" else "") = up at hu ⊢
  have hdata : (scheme ++ up ++ "github.com/" ++ owner ++ "/" ++ repo ++ g).data =
      (scheme.data ++ up.data ++ "github.com/".data ++ owner.data) ++
        '/' :: (repo.data ++ g.data) := by
    simp [String.data_append]
  have hrepoTail : IsRepoTail (owner.data ++ '/' :: (repo.data ++ g.data)) repo.data :=
    ⟨owner.data, g.data, rfl, data_ne_nil hone, ho, data_ne_nil hrne, hr1, hr2, hg⟩
  refine parseRepoName_of_match hdata hr1 hr2 hg (Or.inl ?_)
  rw [hdata]
  rcases hscheme with rfl | rfl
  · exact ⟨[], up.data, _, by simp, Or.inl rfl, hu, hrepoTail⟩
  · exact ⟨['s'], up.data, _, by simp, Or.inr rfl, hu, hrepoTail⟩

/-- C5, the example of the claim. -/
theorem parseRepoName_https_url_witness :
    parseRepoName "https://github.com/octocat/Hello-World.git" = "Hello-World" :=
  parseRepoName_https_url "https://" "" "octocat" "Hello-World" false true (Or.inr rfl)
    (by simp) (by decide) (by decide)

/-- C6: an SSH-form URL (`git@github.com:`, a non-empty owner without '/', a non-empty repo
without '/' and '.', optional `.git`) is normalised to its repo segment. -/
theorem parseRepoName_ssh_url (owner repo : String) (dotGit : Bool)
    (howner : owner ≠ "" ∧ '/' ∉ owner.data)
    (hrepo : repo ≠ "" ∧ '/' ∉ repo.data ∧ '.' ∉ repo.data) :
    parseRepoName ("git@github.com:" ++ owner ++ "/" ++ repo ++
      (if dotGit then ".git" else "")) = repo := by
  obtain ⟨hone, ho⟩ := howner
  obtain ⟨hrne, hr1, hr2⟩ := hrepo
  have hg : (if dotGit then ".git" else "").data = [] ∨
      (if dotGit then ".git" else "").data = ['.', 'g', 'i', 't'] := by
    cases dotGit <;> simp
  generalize (if dotGit then ".git" else "") = g at hg ⊢
  have hdata : ("git@github.com:" ++ owner ++ "/" ++ repo ++ g).data =
      ("git@github.com:".data ++ owner.data) ++ '/' :: (repo.data ++ g.data) := by
    simp [String.data_append]
  have hrepoTail : IsRepoTail (owner.data ++ '/' :: (repo.data ++ g.data)) repo.data :=
    ⟨owner.data, g.data, rfl, data_ne_nil hone, ho, data_ne_nil hrne, hr1, hr2, hg⟩
  refine parseRepoName_of_match hdata hr1 hr2 hg (Or.inr ?_)
  rw [hdata]
  exact ⟨_, by simp, hrepoTail⟩

/-- C6, the example of the claim. -/
theorem parseRepoName_ssh_url_witness :
    parseRepoName "git@github.com:octocat/Hello-World.git" = "Hello-World" :=
  parseRepoName_ssh_url "octocat" "Hello-World" true (by decide) (by decide)

theorem isHttpMatch_has_github {t cap : List Char} (h : IsHttpMatch t cap) :
    "github.com".data <:+: t := by
  obtain ⟨sOpt, u, t', rfl, _, _, _⟩ := h
  exact ⟨"http".data ++ (sOpt ++ ("://".data ++ u)), '/' :: t', by simp⟩

theorem isSshMatch_has_github {t cap : List Char} (h : IsSshMatch t cap) :
    "github.com".data <:+: t := by
  obtain ⟨t', rfl, _⟩ := h
  exact ⟨"git@".data, ':' :: t', by simp⟩

theorem no_match_of_not_infix {s : List Char} (h : ¬ "github.com".data <:+: s) :
    ∀ t cap, t <:+ s → ¬ IsHttpMatch t cap ∧ ¬ IsSshMatch t cap := by
  intro t cap hsuf
  constructor
  · intro hm
    exact h ((isHttpMatch_has_github hm).trans hsuf.isInfix)
  · intro hm
    exact h ((isSshMatch_has_github hm).trans hsuf.isInfix)

/-- C7: an input that neither pattern matches is returned unchanged, and an input that does
not contain `github.com` is such an input. -/
theorem parseRepoName_passthrough (input : String) :
    (httpRegex.FindStringSubmatch input = [] → sshRegex.FindStringSubmatch input = [] →
        parseRepoName input = input) ∧
      (¬ "github.com".data <:+: input.data →
        httpRegex.FindStringSubmatch input = [] ∧ sshRegex.FindStringSubmatch input = [] ∧
          parseRepoName input = input) := by
  constructor
  · intro h1 h2
    simp [parseRepoName, h1, h2]
  · intro h
    have hno := no_match_of_not_infix h
    refine ⟨?_, ?_, parseRepoName_eq_self_of_no_match hno⟩
    · simp [Regex.FindStringSubmatch, http_find_eq_nil (fun t cap hs => (hno t cap hs).1)]
    · simp [Regex.FindStringSubmatch, ssh_find_eq_nil (fun t cap hs => (hno t cap hs).2)]

/-- C7, the example of the claim: the bare name `Hello-World`. -/
theorem parseRepoName_passthrough_witness :
    ¬ "github.com".data <:+: "Hello-World".data ∧ parseRepoName "Hello-World" = "Hello-World" :=
  ⟨by decide, ((parseRepoName_passthrough "Hello-World").2 (by decide)).2.2⟩

/-- What a match of `repoTail` at a suffix of `X/rest` (no slash in `rest`) looks like: the
owner segment is a suffix of `X` and the repo segment with its optional `.git` is `rest`. -/
theorem isRepoTail_shape {s X rest t cap : List Char} (hs : s = X ++ '/' :: rest)
    (hrest : '/' ∉ rest) (hsuf : t <:+ s) (ht : IsRepoTail t cap) :
    ∃ o, t = o ++ '/' :: rest ∧ o <:+ X ∧ o ≠ [] ∧ '/' ∉ o := by
  obtain ⟨o, g, rfl, hone, ho, hcne, hc1, hc2, hg⟩ := ht
  obtain ⟨pre, hpre⟩ := hsuf
  have hno : '/' ∉ cap ++ g := by
    rcases hg with rfl | rfl
    · simpa using hc1
    · simpa using hc1
  have heq : (pre ++ o) ++ '/' :: (cap ++ g) = X ++ '/' :: rest := by
    rw [← hs, ← hpre]
    simp
  obtain ⟨hX, hr⟩ := last_split_unique _ _ _ _ heq hno hrest
  exact ⟨o, by rw [hr], ⟨pre, hX⟩, hone, ho⟩

/-- No pattern matches at a suffix of `X/a.b` when `a` has no '.', `b` has no '/' and
`b` is not `git`. -/
theorem no_repoTail_of_dotted {s X a b t cap : List Char} (hs : s = X ++ '/' :: (a ++ '.' :: b))
    (ha1 : '/' ∉ a) (ha2 : '.' ∉ a) (hb : '/' ∉ b) (hgit : b ≠ ['g', 'i', 't'])
    (hsuf : t <:+ s) : ¬ IsRepoTail t cap := by
  intro ht
  have hrest : '/' ∉ a ++ '.' :: b := by simp [ha1, hb]
  obtain ⟨h, _, hc2, _⟩ := isRepoTail_rest_eq hs hrest hsuf ht
  rcases h with h | h
  · have : '.' ∈ cap := by
      have h' : cap = a ++ '.' :: b := by simpa using h
      rw [h']
      simp
    exact hc2 this
  · have h' : cap ++ '.' :: ['g', 'i', 't'] = a ++ '.' :: b := by simpa using h
    exact hgit (first_split_unique _ _ _ _ h' hc2 ha2).2.symm

/-- C8 as the code has it: with a repo segment `a.b` (`a` non-empty without '/' and '.', `b`
without '/'), both URL forms give `a` when `b` is `git`, the optional suffix, and for every
other `b` neither pattern matches and the input is returned unchanged. -/
theorem parseRepoName_dotted_repo (owner a b : String)
    (howner : owner ≠ "" ∧ '/' ∉ owner.data)
    (ha : a ≠ "" ∧ '/' ∉ a.data ∧ '.' ∉ a.data) (hb : '/' ∉ b.data) :
    (b = "git" →
        parseRepoName ("https://github.com/" ++ owner ++ "/" ++ a ++ "." ++ b) = a ∧
        parseRepoName ("git@github.com:" ++ owner ++ "/" ++ a ++ "." ++ b) = a) ∧
      (b ≠ "git" →
        parseRepoName ("https://github.com/" ++ owner ++ "/" ++ a ++ "." ++ b) =
          "https://github.com/" ++ owner ++ "/" ++ a ++ "." ++ b ∧
        parseRepoName ("git@github.com:" ++ owner ++ "/" ++ a ++ "." ++ b) =
          "git@github.com:" ++ owner ++ "/" ++ a ++ "." ++ b) := by
  constructor
  · rintro rfl
    have htail : IsRepoTail (owner.data ++ '/' :: (a.data ++ ['.', 'g', 'i', 't'])) a.data :=
      ⟨owner.data, ['.', 'g', 'i', 't'], rfl, data_ne_nil howner.1, howner.2,
        data_ne_nil ha.1, ha.2.1, ha.2.2, Or.inr rfl⟩
    constructor
    · have hdata : ("https://github.com/" ++ owner ++ "/" ++ a ++ "." ++ "git").data =
          ("https://github.com/".data ++ owner.data) ++
            '/' :: (a.data ++ ['.', 'g', 'i', 't']) := by
        simp [String.data_append]
      refine parseRepoName_of_match hdata ha.2.1 ha.2.2 (Or.inr rfl) (Or.inl ?_)
      rw [hdata]
      exact ⟨['s'], [], _, by simp, Or.inr rfl, Or.inl rfl, htail⟩
    · have hdata : ("git@github.com:" ++ owner ++ "/" ++ a ++ "." ++ "git").data =
          ("git@github.com:".data ++ owner.data) ++
            '/' :: (a.data ++ ['.', 'g', 'i', 't']) := by
        simp [String.data_append]
      refine parseRepoName_of_match hdata ha.2.1 ha.2.2 (Or.inr rfl) (Or.inr ?_)
      rw [hdata]
      exact ⟨_, by simp, htail⟩
  · intro hgit
    have hgit' : b.data ≠ ['g', 'i', 't'] := by
      intro h
      apply hgit
      cases b
      simp_all
    constructor
    · apply parseRepoName_eq_self_of_no_match
      intro t cap hsuf
      have hdata : ("https://github.com/" ++ owner ++ "/" ++ a ++ "." ++ b).data =
          ("https://github.com/".data ++ owner.data) ++ '/' :: (a.data ++ '.' :: b.data) := by
        simp [String.data_append]
      constructor
      · intro hm
        obtain ⟨t', ht', h'⟩ := match_tail hsuf (Or.inl hm)
        exact no_repoTail_of_dotted hdata ha.2.1 ha.2.2 hb hgit' ht' h'
      · intro hm
        obtain ⟨t', ht', h'⟩ := match_tail hsuf (Or.inr hm)
        exact no_repoTail_of_dotted hdata ha.2.1 ha.2.2 hb hgit' ht' h'
    · apply parseRepoName_eq_self_of_no_match
      intro t cap hsuf
      have hdata : ("git@github.com:" ++ owner ++ "/" ++ a ++ "." ++ b).data =
          ("git@github.com:".data ++ owner.data) ++ '/' :: (a.data ++ '.' :: b.data) := by
        simp [String.data_append]
      constructor
      · intro hm
        obtain ⟨t', ht', h'⟩ := match_tail hsuf (Or.inl hm)
        exact no_repoTail_of_dotted hdata ha.2.1 ha.2.2 hb hgit' ht' h'
      · intro hm
        obtain ⟨t', ht', h'⟩ := match_tail hsuf (Or.inr hm)
        exact no_repoTail_of_dotted hdata ha.2.1 ha.2.2 hb hgit' ht' h'

/-- C8, witness: the repo segment `my.repo` leaves both URL forms unchanged. -/
theorem parseRepoName_dotted_repo_witness :
    parseRepoName "https://github.com/octocat/my.repo" = "https://github.com/octocat/my.repo" ∧
      parseRepoName "git@github.com:octocat/my.repo" = "git@github.com:octocat/my.repo" :=
  (parseRepoName_dotted_repo "octocat" "my" "repo" (by decide) (by decide) (by decide)).2
    (by decide)

/-- C8, counterexample: the repo segment `my.repo` is not truncated to `my`, under either
pattern. -/
theorem parseRepoName_dotted_repo_counterexample :
    parseRepoName ("https://github.com/" ++ "octocat" ++ "/" ++ "my" ++ "." ++ "repo") ≠ "my" ∧
      parseRepoName ("git@github.com:" ++ "octocat" ++ "/" ++ "my" ++ "." ++ "repo") ≠ "my" := by
  decide

theorem isHttpMatch_count_slash {t cap : List Char} (h : IsHttpMatch t cap) :
    4 ≤ t.count '/' := by
  obtain ⟨sOpt, u, t', rfl, _, _, o, g, rfl, _⟩ := h
  simp only [List.count_append, List.count_cons, List.count_nil]
  simp
  omega

/-- The HTTPS pattern matches nowhere in a text with fewer than four slashes. -/
theorem no_http_of_count_slash {s : List Char} (h : s.count '/' < 4) :
    ∀ t cap, t <:+ s → ¬ IsHttpMatch t cap := by
  intro t cap hsuf hm
  have h1 := isHttpMatch_count_slash hm
  have h2 : t.count '/' ≤ s.count '/' := hsuf.sublist.count_le _
  omega

/-- A match of the SSH pattern at a suffix of `github.com/owner/rest` lies inside `owner`. -/
theorem ssh_in_owner {s owner rest t cap : List Char}
    (hs : s = ("github.com/".data ++ owner) ++ '/' :: rest) (hrest : '/' ∉ rest)
    (hsuf : t <:+ s) (hm : IsSshMatch t cap) :
    ∃ y x, x ≠ [] ∧ owner = y ++ ("git@github.com:".data ++ x) := by
  obtain ⟨t', rfl, ht'⟩ := hm
  have hsuf' : t' <:+ s := (List.suffix_append _ _).trans hsuf
  obtain ⟨o, rfl, _, hone, ho⟩ := isRepoTail_shape hs hrest hsuf' ht'
  obtain ⟨pre, hpre⟩ := hsuf
  have heq : (pre ++ ("git@github.com:".data ++ o)) ++ '/' :: rest =
      ("github.com/".data ++ owner) ++ '/' :: rest := by
    rw [← hs, ← hpre]
    simp
  have hX := List.append_cancel_right heq
  rcases List.append_eq_append_iff.mp hX with ⟨a', h1, h2⟩ | ⟨c', h1, h2⟩
  · -- `a'` is a suffix of `github.com/` inside the slash-free text `git@github.com:` ++ o
    have hno : '/' ∉ "git@github.com:".data ++ o := by simp [ho]
    cases hl : a'.getLast? with
    | none =>
      rw [List.getLast?_eq_none_iff] at hl
      subst hl
      exact ⟨[], o, hone, by simpa using h2.symm⟩
    | some z =>
      obtain ⟨ini, rfl⟩ : ∃ ini, a' = ini ++ [z] := by
        have := List.dropLast_append_getLast? z hl
        exact ⟨a'.dropLast, this.symm⟩
      have hz : z = '/' := by
        have h3 : "github.com".data ++ ['/'] = (pre ++ ini) ++ [z] := by
          rw [List.append_assoc, ← h1]
          rfl
        exact ((List.append_inj' h3 rfl).2 ▸ rfl : [z] = ['/']) |> fun h => by simpa using h
      subst hz
      exact absurd (h2 ▸ (by simp : '/' ∈ (ini ++ ['/']) ++ owner)) hno
  · exact ⟨c', o, hone, h2⟩

/-- C9 as the code has it: the scheme is required.  On `github.com/owner/repo` (optionally
with `.git`) the HTTPS pattern does not match; the input is returned unchanged, unless
`owner` itself contains `git@github.com:` followed by at least one character, where the SSH
pattern matches and `repo` is returned. -/
theorem parseRepoName_without_scheme (owner repo : String) (dotGit : Bool)
    (howner : owner ≠ "" ∧ '/' ∉ owner.data)
    (hrepo : repo ≠ "" ∧ '/' ∉ repo.data ∧ '.' ∉ repo.data) :
    httpRegex.FindStringSubmatch
        ("github.com/" ++ owner ++ "/" ++ repo ++ (if dotGit then ".git" else "")) = [] ∧
      ((¬ ∃ y x : String, x ≠ "" ∧ owner = y ++ "git@github.com:" ++ x) →
        parseRepoName ("github.com/" ++ owner ++ "/" ++ repo ++ (if dotGit then ".git" else ""))
          = "github.com/" ++ owner ++ "/" ++ repo ++ (if dotGit then ".git" else "")) ∧
      ((∃ y x : String, x ≠ "" ∧ owner = y ++ "git@github.com:" ++ x) →
        parseRepoName ("github.com/" ++ owner ++ "/" ++ repo ++ (if dotGit then ".git" else ""))
          = repo) := by
  obtain ⟨hone, ho⟩ := howner
  obtain ⟨hrne, hr1, hr2⟩ := hrepo
  have hg : (if dotGit then ".git" else "").data = [] ∨
      (if dotGit then ".git" else "").data = ['.', 'g', 'i', 't'] := by
    cases dotGit <;> simp
  generalize (if dotGit then ".git" else "") = g at hg ⊢
  have hdata : ("github.com/" ++ owner ++ "/" ++ repo ++ g).data =
      ("github.com/".data ++ owner.data) ++ '/' :: (repo.data ++ g.data) := by
    simp [String.data_append]
  have hrest : '/' ∉ repo.data ++ g.data := by
    rcases hg with h | h <;> simp [h, hr1]
  have hcount : ("github.com/" ++ owner ++ "/" ++ repo ++ g).data.count '/' < 4 := by
    rw [hdata]
    simp only [List.count_append, List.count_cons, List.count_nil,
      List.count_eq_zero_of_not_mem ho, List.count_eq_zero_of_not_mem hr1]
    rcases hg with h | h <;> simp [h]
  have hnohttp := no_http_of_count_slash hcount
  refine ⟨?_, ?_, ?_⟩
  · simp only [Regex.FindStringSubmatch, http_find_eq_nil hnohttp, List.map_nil]
  · intro hnot
    apply parseRepoName_eq_self_of_no_match
    intro t cap hsuf
    refine ⟨hnohttp t cap hsuf, ?_⟩
    intro hm
    obtain ⟨y, x, hx, h⟩ := ssh_in_owner hdata hrest hsuf hm
    apply hnot
    refine ⟨String.mk y, String.mk x, ?_, ?_⟩
    · intro h'
      apply hx
      simpa using congrArg String.data h'
    · apply String.ext
      simp [String.data_append, h]
  · rintro ⟨y, x, hx, rfl⟩
    have hox : '/' ∉ x.data := by
      intro hm
      apply ho
      simp [String.data_append, hm]
    apply parseRepoName_eq_of_unique
    · refine ⟨"git@github.com:".data ++ (x.data ++ '/' :: (repo.data ++ g.data)), repo.data,
        ⟨"github.com/".data ++ y.data, ?_⟩, Or.inr ⟨_, rfl, x.data, g.data, rfl,
          data_ne_nil hx, hox, data_ne_nil hrne, hr1, hr2, hg⟩⟩
      simp [String.data_append]
    · intro t cap hsuf hm
      obtain ⟨t', ht', h'⟩ := match_tail hsuf hm
      exact isRepoTail_cap_eq hdata hr1 hr2 hg ht' h'

/-- C9, witness: without a scheme the URL is returned as it is. -/
theorem parseRepoName_without_scheme_witness :
    httpRegex.FindStringSubmatch "github.com/octocat/Hello-World" = [] ∧
      parseRepoName "github.com/octocat/Hello-World" = "github.com/octocat/Hello-World" :=
  ⟨(parseRepoName_without_scheme "octocat" "Hello-World" false (by decide) (by decide)).1,
    (parseRepoName_without_scheme "octocat" "Hello-World" false (by decide) (by decide)).2.1
      (by
        rintro ⟨y, x, _, h⟩
        have h' := congrArg (fun s => decide ('@' ∈ String.data s)) h
        simp [String.data_append] at h')⟩

/-- C9, counterexample: `github.com/octocat/Hello-World` is not normalised to
`Hello-World`. -/
theorem parseRepoName_without_scheme_counterexample :
    parseRepoName ("github.com/" ++ "octocat" ++ "/" ++ "Hello-World") ≠ "Hello-World" := by
  decide

/-! ## Theorems about `loadAccountConfig` and `main` -/

/-- With both flags set, or neither, the body of `main` exits 1 with nothing on standard
output. -/
theorem main_exit1_of_flags (r : Run)
    (h : (r.personalAccountFlag = true ∧ r.workAccountFlag = true) ∨
      (r.personalAccountFlag = false ∧ r.workAccountFlag = false)) :
    main r = .exit 1 "" := by
  rcases h with ⟨hp, hw⟩ | ⟨hp, hw⟩ <;> simp [main, hp, hw]

/-- With no positional argument, or two or more, the body of `main` exits 1 with nothing on
standard output. -/
theorem main_exit1_of_arg_count (r : Run) (h : r.args.length = 0 ∨ 2 ≤ r.args.length) :
    main r = .exit 1 "" := by
  have hne : ∀ arg, r.args ≠ [arg] := by
    intro arg harg
    rw [harg] at h
    simp at h
  unfold main
  split
  · rfl
  · split
    · rfl
    · split
      · next arg harg => exact absurd harg (hne arg)
      · rfl

/-- The body of `main` ends in one of three ways: exit 0 with a URL and a newline on standard
output, exit 1 with nothing on standard output, or a run-time panic with nothing on standard
output. -/
theorem main_outcomes (r : Run) :
    (∃ token username repoName, main r = .exit 0 (repoURL token username repoName ++ "\n")) ∨
      main r = .exit 1 "" ∨ main r = .panic "" := by
  unfold main
  split
  · exact Or.inr (Or.inl rfl)
  · split
    · exact Or.inr (Or.inl rfl)
    · split
      · split
        · exact Or.inr (Or.inr rfl)
        · exact Or.inr (Or.inl rfl)
        · split
          · exact Or.inr (Or.inl rfl)
          · exact Or.inl ⟨_, _, _, rfl⟩
      · exact Or.inr (Or.inl rfl)

/-- C4, the failing run: with `-p`, one argument and a config file whose only line is `K="`
(a value that is a single double quote), `loadEnv` takes the slice `value[1:0]` and the run
ends in a run-time panic, neither exit 0 with a URL line nor exit 1. -/
theorem main_panics_on_lone_quote :
    main ⟨true, false, ["Hello-World"], .readable "K=\"", .absent⟩ = .panic "" := by
  decide

/-- C10: `loadAccountConfig` succeeds exactly when the four keys are present; on success the
records hold the mapped values; an incomplete personal pair gives the personal message and
otherwise an incomplete work pair gives the work message, a different text; and a run with
`-w` whose loaded mapping lacks `GITHUB_PERSONAL_TOKEN` exits 1 with nothing on standard
output. -/
theorem loadAccountConfig_spec (env : Env) (r : Run) :
    ((∃ config, loadAccountConfig env = .ok config) ↔
        ((env "GITHUB_PERSONAL_USER").isSome ∧ (env "GITHUB_PERSONAL_TOKEN").isSome ∧
          (env "GITHUB_WORK_USER").isSome ∧ (env "GITHUB_WORK_TOKEN").isSome)) ∧
      (∀ config, loadAccountConfig env = .ok config →
        env "GITHUB_PERSONAL_USER" = some config.PersonalAccount.Username ∧
        env "GITHUB_PERSONAL_TOKEN" = some config.PersonalAccount.Token ∧
        env "GITHUB_WORK_USER" = some config.WorkAccount.Username ∧
        env "GITHUB_WORK_TOKEN" = some config.WorkAccount.Token) ∧
      (env "GITHUB_PERSONAL_USER" = none ∨ env "GITHUB_PERSONAL_TOKEN" = none →
        loadAccountConfig env = .error personalMissing) ∧
      ((env "GITHUB_PERSONAL_USER").isSome → (env "GITHUB_PERSONAL_TOKEN").isSome →
        env "GITHUB_WORK_USER" = none ∨ env "GITHUB_WORK_TOKEN" = none →
        loadAccountConfig env = .error workMissing) ∧
      personalMissing ≠ workMissing ∧
      (r.workAccountFlag = true → (∃ err, loadEnv (envFile r) = .returned env err) →
        env "GITHUB_PERSONAL_TOKEN" = none → main r = .exit 1 "") := by
  refine ⟨?_, ?_, ?_, ?_, by decide, ?_⟩
  · unfold loadAccountConfig
    cases env "GITHUB_PERSONAL_USER" <;> cases env "GITHUB_PERSONAL_TOKEN" <;>
      cases env "GITHUB_WORK_USER" <;> cases env "GITHUB_WORK_TOKEN" <;> simp
  · intro config
    unfold loadAccountConfig
    cases env "GITHUB_PERSONAL_USER" <;> cases env "GITHUB_PERSONAL_TOKEN" <;>
      cases env "GITHUB_WORK_USER" <;> cases env "GITHUB_WORK_TOKEN" <;> simp
    rintro rfl
    exact ⟨rfl, rfl, rfl, rfl⟩
  · unfold loadAccountConfig
    cases env "GITHUB_PERSONAL_USER" <;> cases env "GITHUB_PERSONAL_TOKEN" <;> simp
  · unfold loadAccountConfig
    cases env "GITHUB_PERSONAL_USER" <;> cases env "GITHUB_PERSONAL_TOKEN" <;>
      cases env "GITHUB_WORK_USER" <;> cases env "GITHUB_WORK_TOKEN" <;> simp
  · rintro hw ⟨err, hload⟩ hpt
    have hcfg : loadAccountConfig env = .error personalMissing := by
      unfold loadAccountConfig
      rw [hpt]
      cases env "GITHUB_PERSONAL_USER" <;> rfl
    unfold main
    split
    · rfl
    · split
      · rfl
      · split
        · rw [hload]
          cases err with
          | some e => rfl
          | none => simp only [hcfg]
        · rfl

/-- C10, witness: `-w` with a config that lacks only `GITHUB_PERSONAL_TOKEN` gives the
personal-account error and exit 1 with nothing on standard output. -/
theorem loadAccountConfig_spec_witness :
    loadEnv (.readable noPersonalTokenConfig) = .returned noPersonalTokenEnv none ∧
      loadAccountConfig noPersonalTokenEnv = .error personalMissing ∧
      main ⟨false, true, ["Hello-World"], .readable noPersonalTokenConfig, .absent⟩ =
        .exit 1 "" :=
  ⟨rfl,
    (loadAccountConfig_spec noPersonalTokenEnv
      ⟨false, true, ["Hello-World"], .readable noPersonalTokenConfig, .absent⟩).2.2.1
      (Or.inr rfl),
    (loadAccountConfig_spec noPersonalTokenEnv
      ⟨false, true, ["Hello-World"], .readable noPersonalTokenConfig, .absent⟩).2.2.2.2.2
      rfl ⟨none, rfl⟩ rfl⟩

/-! ## White space trimming -/

theorem TrimSpace_eq (s : List Char) :
    TrimSpace s = (s.dropWhile isSpace).rdropWhile isSpace := rfl

theorem isSpace_cr : isSpace '\r' = true := by decide

theorem isSpace_eq_sign : isSpace '=' = false := by decide

theorem isSpace_hash : isSpace '#' = false := by decide

theorem isSpace_dquote : isSpace dquote = false := by decide

theorem isSpace_squote : isSpace squote = false := by decide

theorem rdropWhile_cons (p : Char → Bool) (x : Char) (xs : List Char) :
    (x :: xs).rdropWhile p =
      if xs.rdropWhile p = [] ∧ p x = true then [] else x :: xs.rdropWhile p := by
  induction xs using List.reverseRecOn generalizing x with
  | nil =>
    have : ([x] : List Char) = [] ++ [x] := rfl
    rw [this, List.rdropWhile_concat]
    by_cases h : p x = true <;> simp [h, List.rdropWhile_nil]
  | append_singleton ys y ih =>
    rw [← List.cons_append, List.rdropWhile_concat, List.rdropWhile_concat]
    by_cases hy : p y = true
    · simp only [hy, if_true]
      exact ih x
    · simp [hy]

theorem dropWhile_append_cons_neg (p : Char → Bool) (a b : List Char) (x : Char)
    (hx : p x = false) : (a ++ x :: b).dropWhile p = a.dropWhile p ++ x :: b := by
  induction a with
  | nil => simp [hx]
  | cons y ys ih =>
    by_cases hy : p y = true
    · simp [hy, ih]
    · simp [hy]

theorem rdropWhile_append_cons_neg (p : Char → Bool) (a b : List Char) (x : Char)
    (hx : p x = false) : (a ++ x :: b).rdropWhile p = a ++ x :: b.rdropWhile p := by
  induction b using List.reverseRecOn with
  | nil =>
    have : a ++ [x] = (a ++ [x]) := rfl
    rw [List.rdropWhile_nil]
    exact List.rdropWhile_concat_neg p a x (by simp [hx])
  | append_singleton ys y ih =>
    have e : a ++ x :: (ys ++ [y]) = (a ++ x :: ys) ++ [y] := by simp
    rw [e, List.rdropWhile_concat, List.rdropWhile_concat]
    by_cases hy : p y = true
    · simp only [hy, if_true]
      exact ih
    · simp [hy]

/-- Trimming on the left and trimming on the right commute. -/
theorem dropWhile_rdropWhile_comm (p : Char → Bool) (l : List Char) :
    (l.rdropWhile p).dropWhile p = (l.dropWhile p).rdropWhile p := by
  induction l with
  | nil => simp [List.rdropWhile_nil]
  | cons x xs ih =>
    rw [rdropWhile_cons]
    by_cases hx : p x = true
    · rw [List.dropWhile_cons_of_pos hx]
      by_cases hn : xs.rdropWhile p = []
      · have hall := List.rdropWhile_eq_nil_iff.mp hn
        have h1 : xs.dropWhile p = [] := List.dropWhile_eq_nil_iff.mpr hall
        simp [hn, hx, h1, List.rdropWhile_nil]
      · simp only [hn, false_and, if_false]
        rw [List.dropWhile_cons_of_pos hx]
        exact ih
    · have hx' : ¬ (xs.rdropWhile p = [] ∧ p x = true) := fun h => hx h.2
      rw [if_neg hx', List.dropWhile_cons_of_neg hx, List.dropWhile_cons_of_neg hx,
        rdropWhile_cons, if_neg hx']

theorem TrimSpace_dropWhile (s : List Char) : TrimSpace (s.dropWhile isSpace) = TrimSpace s := by
  rw [TrimSpace_eq, TrimSpace_eq, List.dropWhile_idempotent]

theorem TrimSpace_rdropWhile (s : List Char) :
    TrimSpace (s.rdropWhile isSpace) = TrimSpace s := by
  rw [TrimSpace_eq, TrimSpace_eq, dropWhile_rdropWhile_comm, List.rdropWhile_idempotent]

theorem TrimSpace_idem (s : List Char) : TrimSpace (TrimSpace s) = TrimSpace s := by
  rw [TrimSpace_eq s, TrimSpace_rdropWhile, TrimSpace_dropWhile, TrimSpace_eq]

theorem TrimSpace_dropCR (s : List Char) : TrimSpace (dropCR s) = TrimSpace s := by
  unfold dropCR
  split
  · next h =>
    obtain ⟨ini, rfl⟩ : ∃ ini, s = ini ++ ['\r'] :=
      ⟨s.dropLast, (List.dropLast_append_getLast? _ h).symm⟩
    rw [List.dropLast_concat, ← TrimSpace_rdropWhile (ini ++ ['\r']),
      List.rdropWhile_concat_pos _ _ _ isSpace_cr, TrimSpace_rdropWhile]
  · rfl

/-- A line with a first '=' is trimmed to the left-trimmed text before the '=' and the
right-trimmed text after it. -/
theorem TrimSpace_split (before after : List Char) :
    TrimSpace (before ++ '=' :: after) =
      before.dropWhile isSpace ++ '=' :: after.rdropWhile isSpace := by
  rw [TrimSpace_eq, dropWhile_append_cons_neg _ _ _ _ isSpace_eq_sign,
    rdropWhile_append_cons_neg _ _ _ _ isSpace_eq_sign]

theorem TrimSpace_eq_nil_iff (s : List Char) : TrimSpace s = [] ↔ ∀ x ∈ s, isSpace x = true := by
  rw [TrimSpace_eq, List.rdropWhile_eq_nil_iff]
  constructor
  · intro h
    by_contra hne
    push_neg at hne
    obtain ⟨x, hx, hpx⟩ := hne
    have hd : s.dropWhile isSpace ≠ [] := by
      intro h0
      exact hpx (List.dropWhile_eq_nil_iff.mp h0 x hx)
    cases hs : s.dropWhile isSpace with
    | nil => exact hd hs
    | cons y ys =>
      have hy : isSpace y = true := h y (by rw [hs]; exact List.mem_cons_self _ _)
      have := List.head?_dropWhile_not isSpace s
      rw [hs] at this
      simp [hy] at this
  · intro h x hx
    exact h x ((List.dropWhile_sublist isSpace).subset hx)

/-- The first character of a trimmed line is the first character after the leading white
space. -/
theorem head?_TrimSpace (s : List Char) :
    (TrimSpace s).head? = (s.dropWhile isSpace).head? := by
  rw [TrimSpace_eq]
  cases hs : s.dropWhile isSpace with
  | nil => simp [List.rdropWhile_nil]
  | cons y ys =>
    have hy : ¬ isSpace y = true := by
      have := List.head?_dropWhile_not isSpace s
      rw [hs] at this
      simpa using this
    have hy' : ¬ (ys.rdropWhile isSpace = [] ∧ isSpace y = true) := fun h => hy h.2
    rw [rdropWhile_cons, if_neg hy']
    rfl

theorem TrimSpace_sublist (s : List Char) : List.Sublist (TrimSpace s) s := by
  rw [TrimSpace_eq]
  exact List.Sublist.trans (List.IsPrefix.sublist ( List.rdropWhile_prefix isSpace _))
    (List.dropWhile_sublist _)

/-- A trimmed text has no leading white space. -/
theorem dropWhile_of_TrimSpace_eq_self (s : List Char) (h : TrimSpace s = s) :
    s.dropWhile isSpace = s := by
  have h1 : (TrimSpace s).length ≤ (s.dropWhile isSpace).length := by
    rw [TrimSpace_eq]
    exact List.IsPrefix.length_le ( List.rdropWhile_prefix isSpace _)
  rw [h] at h1
  exact List.IsSuffix.eq_of_length_le (List.dropWhile_suffix isSpace) h1

/-- A line that starts with a well-formed key and '=' is not a comment. -/
theorem isCommentLine_key_line (key rest : List Char) (hk : IsKey key) :
    isCommentLine (key ++ '=' :: rest) = false := by
  obtain ⟨hk1, _, hk3⟩ := hk
  unfold isCommentLine
  rw [dropWhile_append_cons_neg _ _ _ _ isSpace_eq_sign, dropWhile_of_TrimSpace_eq_self _ hk1]
  cases hkd : key with
  | nil => simp
  | cons x xs =>
    rw [hkd] at hk3
    simpa using hk3

/-! ## One iteration of the scanning loop -/

theorem SplitN2_no_eq (l : List Char) (h : '=' ∉ l) : SplitN2 l = [l] := by
  induction l with
  | nil => rfl
  | cons c t ih =>
    have hc : c ≠ '=' := fun e => h (e ▸ List.mem_cons_self _ _)
    have ht : '=' ∉ t := fun m => h (List.mem_cons_of_mem _ m)
    simp [SplitN2, hc, ih ht]

theorem SplitN2_first_eq (before after : List Char) (h : '=' ∉ before) :
    SplitN2 (before ++ '=' :: after) = [before, after] := by
  induction before with
  | nil => simp [SplitN2]
  | cons c t ih =>
    have hc : c ≠ '=' := fun e => h (e ▸ List.mem_cons_self _ _)
    have ht : '=' ∉ t := fun m => h (List.mem_cons_of_mem _ m)
    simp [SplitN2, hc, ih ht]

theorem HasPrefix_singleton (s : List Char) (c : Char) :
    HasPrefix s [c] = true ↔ s.head? = some c := by
  cases s with
  | nil => simp [HasPrefix, List.isPrefixOf]
  | cons x xs =>
    simp only [HasPrefix, List.isPrefixOf, List.head?_cons, Option.some.injEq, Bool.and_true,
      beq_iff_eq]
    exact eq_comm

theorem HasSuffix_singleton (s : List Char) (c : Char) :
    HasSuffix s [c] = true ↔ s.getLast? = some c := by
  have h := HasPrefix_singleton s.reverse c
  rw [List.head?_reverse] at h
  exact h

theorem stripQuotes_of_not_quoted (value : List Char) (h : ¬ IsQuoted value) :
    stripQuotes value = some value := by
  unfold stripQuotes
  rw [if_neg]
  intro hq
  apply h
  simp only [Bool.or_eq_true, Bool.and_eq_true, HasPrefix_singleton, HasSuffix_singleton] at hq
  exact hq

theorem stripQuotes_quoted (q : Char) (v : List Char) (hq : q = dquote ∨ q = squote) :
    stripQuotes (q :: (v ++ [q])) = some v := by
  have hpre : HasPrefix (q :: (v ++ [q])) [q] = true := by
    rw [HasPrefix_singleton]
    rfl
  have hsuf : HasSuffix (q :: (v ++ [q])) [q] = true := by
    rw [HasSuffix_singleton, ← List.cons_append, List.getLast?_concat]
  have hslice : goSlice (q :: (v ++ [q])) 1 ((q :: (v ++ [q])).length - 1) = some v := by
    unfold goSlice
    have hlen : (q :: (v ++ [q])).length - 1 = v.length + 1 := by simp
    rw [hlen, if_pos ⟨by omega, by simp⟩]
    simp
  unfold stripQuotes
  rcases hq with rfl | rfl
  · rw [hpre, hsuf]
    simpa using hslice
  · rw [hpre, hsuf]
    simpa using hslice

/-- The slice of the quote stripping is out of range exactly for a value that is one quote
character. -/
theorem stripQuotes_eq_none_iff (value : List Char) :
    stripQuotes value = none ↔ value = [dquote] ∨ value = [squote] := by
  constructor
  · intro h
    by_cases hq : IsQuoted value
    · cases value with
      | nil => simp [IsQuoted] at hq
      | cons x xs =>
        cases xs with
        | nil =>
          rcases hq with ⟨h1, _⟩ | ⟨h1, _⟩
          · left
            simpa using h1
          · right
            simpa using h1
        | cons y ys =>
          exfalso
          have hquoted : (HasPrefix (x :: y :: ys) [dquote] && HasSuffix (x :: y :: ys) [dquote] ||
              HasPrefix (x :: y :: ys) [squote] && HasSuffix (x :: y :: ys) [squote]) = true := by
            simp only [Bool.or_eq_true, Bool.and_eq_true, HasPrefix_singleton,
              HasSuffix_singleton]
            exact hq
          unfold stripQuotes at h
          rw [if_pos hquoted] at h
          unfold goSlice at h
          rw [if_pos ⟨by simp, by simp⟩] at h
          exact absurd h (by simp)
    · rw [stripQuotes_of_not_quoted value hq] at h
      exact absurd h (by simp)
  · rintro (rfl | rfl) <;> decide

theorem loadLine_eq_trim (env : Env) (text : List Char) :
    loadLine env text = loadLine env (TrimSpace text) := by
  unfold loadLine
  simp only [TrimSpace_idem]

theorem loadLine_dropCR (env : Env) (text : List Char) :
    loadLine env (dropCR text) = loadLine env text := by
  rw [loadLine_eq_trim, TrimSpace_dropCR, ← loadLine_eq_trim]

/-- An ignored line leaves the mapping as it is. -/
theorem loadLine_ignored (env : Env) (text : List Char) (h : isIgnoredLine text = true) :
    loadLine env text = some env := by
  simp only [isIgnoredLine, Bool.or_eq_true] at h
  unfold loadLine
  rcases h with (h | h) | h
  · have : TrimSpace text = [] := by
      rw [TrimSpace_eq_nil_iff]
      simpa [isBlankLine] using h
    simp [this]
  · have hh : (TrimSpace text).head? = some '#' := by
      rw [head?_TrimSpace]
      simpa [isCommentLine] using h
    have : HasPrefix (TrimSpace text) ['#'] = true := (HasPrefix_singleton _ _).mpr hh
    simp [this]
  · have hne : '=' ∉ TrimSpace text := by
      intro hm
      have : '=' ∈ text := (TrimSpace_sublist text).subset hm
      simp [hasNoEquals, this] at h
    simp only [SplitN2_no_eq _ hne]
    split <;> rfl

/-- A line that is not a comment and has a first '=': the key is the trimmed text before
it, the value the trimmed text after it, without its quotes. -/
theorem loadLine_split (env : Env) (before after : List Char) (hb : '=' ∉ before)
    (hc : isCommentLine (before ++ '=' :: after) = false) :
    loadLine env (before ++ '=' :: after) =
      match stripQuotes (TrimSpace after) with
      | none => none
      | some value => some (env.set (String.mk (TrimSpace before)) (String.mk value)) := by
  have hline := TrimSpace_split before after
  have hb' : '=' ∉ before.dropWhile isSpace :=
    fun hm => hb ((List.dropWhile_sublist _).subset hm)
  have hne : TrimSpace (before ++ '=' :: after) ≠ [] := by
    rw [hline]
    simp
  have hhash : HasPrefix (TrimSpace (before ++ '=' :: after)) ['#'] = false := by
    rw [Bool.eq_false_iff]
    intro h
    rw [HasPrefix_singleton, head?_TrimSpace] at h
    simp [isCommentLine, h] at hc
  unfold loadLine
  simp only [hne, hhash, decide_False, Bool.or_self, Bool.false_eq_true, if_false]
  rw [hline, SplitN2_first_eq _ _ hb']
  simp only [TrimSpace_dropWhile, TrimSpace_rdropWhile]

theorem split_at_first_eq (text : List Char) (h : '=' ∈ text) :
    text = text.takeWhile (fun c => c != '=') ++
        '=' :: (text.dropWhile (fun c => c != '=')).drop 1 ∧
      '=' ∉ text.takeWhile (fun c => c != '=') := by
  induction text with
  | nil => simp at h
  | cons x xs ih =>
    by_cases hx : x = '='
    · subst hx
      simp
    · have hm : '=' ∈ xs := by
        rcases List.mem_cons.mp h with e | e
        · exact absurd e.symm hx
        · exact e
      obtain ⟨h1, h2⟩ := ih hm
      have hx' : (x != '=') = true := by simpa using hx
      have ht : (x :: xs).takeWhile (fun c => c != '=') =
          x :: xs.takeWhile (fun c => c != '=') := by
        simp [List.takeWhile_cons, hx']
      have hd : (x :: xs).dropWhile (fun c => c != '=') =
          xs.dropWhile (fun c => c != '=') := by
        simp [List.dropWhile_cons, hx']
      rw [ht, hd]
      refine ⟨?_, ?_⟩
      · rw [List.cons_append, ← h1]
      · intro hmem
        rcases List.mem_cons.mp hmem with e | e
        · exact hx e.symm
        · exact h2 e

/-- The loop body agrees with the description of the format: it panics, or it assigns the
entry of the line, or, for a line without entry, leaves the mapping as it is. -/
theorem loadLine_lineEntry (env : Env) (text : List Char) :
    loadLine env text = none ∨
      loadLine env text = some (match lineEntry text with
        | some (key, value) => env.set key value
        | none => env) := by
  by_cases hi : isIgnoredLine text = true
  · right
    rw [loadLine_ignored env text hi]
    simp [lineEntry, hi]
  · have hi' : isIgnoredLine text = false := by simpa using hi
    have hparts : isCommentLine text = false ∧ '=' ∈ text := by
      simp only [isIgnoredLine, Bool.or_eq_false_iff] at hi'
      refine ⟨hi'.1.2, ?_⟩
      simpa [hasNoEquals] using hi'.2
    obtain ⟨hsplit, hno⟩ := split_at_first_eq text hparts.2
    have hc : isCommentLine (text.takeWhile (fun c => c != '=') ++
        '=' :: (text.dropWhile (fun c => c != '=')).drop 1) = false := by
      rw [← hsplit]
      exact hparts.1
    have hload := loadLine_split env _ _ hno hc
    rw [← hsplit] at hload
    rw [hload]
    simp only [lineEntry, hi', Bool.false_eq_true, if_false]
    cases stripQuotes (TrimSpace ((text.dropWhile (fun c => c != '=')).drop 1)) with
    | none => exact Or.inl rfl
    | some v => exact Or.inr rfl

/-! ## The scanner and the lines of the content -/

theorem splitLines_ne_nil (data : List Char) : splitLines data ≠ [] := by
  induction data with
  | nil => simp [splitLines]
  | cons c rest ih =>
    unfold splitLines
    split
    · simp
    · split <;> simp

theorem loadScanned_cons (tok : List Char) (toks : List (List Char)) (flag : Bool) (env : Env) :
    loadScanned (tok :: toks, flag) env =
      match loadLine env tok with
      | none => .panicked
      | some env' => loadScanned (toks, flag) env' := by
  unfold loadScanned
  simp only [loadLines]
  cases loadLine env tok <;> rfl

/-- The scanner's tokens, run through the loop, give what the loop gives on the lines of the
content, the first of them completed by the part `cur` already read. -/
theorem loadScanned_scanLines (data : List Char) :
    ∀ (cur : List Char) (env : Env), ∃ l ls, splitLines data = l :: ls ∧
      loadScanned (scanLines data cur) env = loadPieces ((cur ++ l) :: ls) env := by
  induction data with
  | nil =>
    intro cur env
    refine ⟨[], [], rfl, ?_⟩
    rw [List.append_nil]
    unfold scanLines
    by_cases hcur : cur = []
    · subst hcur
      have h0 : ¬ MaxScanTokenSize ≤ byteLen [] := by decide
      have hl : loadLine env [] = some env := loadLine_ignored env [] (by decide)
      simp [loadPieces, h0, hl, loadScanned, loadLines]
    · by_cases hlong : MaxScanTokenSize ≤ byteLen cur
      · simp [hcur, hlong, loadPieces, loadScanned, loadLines]
      · simp only [hcur, hlong, if_false, loadPieces, loadScanned_cons, loadLine_dropCR]
        cases loadLine env cur <;> simp [loadScanned, loadLines]
  | cons c rest ih =>
    intro cur env
    by_cases hc : c = '\n'
    · subst hc
      refine ⟨[], splitLines rest, by simp [splitLines], ?_⟩
      rw [List.append_nil]
      unfold scanLines
      by_cases hlong : MaxScanTokenSize ≤ byteLen cur
      · simp [hlong, loadPieces, loadScanned, loadLines]
      · simp only [hlong, if_true, if_false, loadPieces]
        rw [loadScanned_cons, loadLine_dropCR]
        cases hl : loadLine env cur with
        | none => rfl
        | some env' =>
          obtain ⟨l, ls, hsplit, h⟩ := ih [] env'
          simp only [Prod.mk.eta, h, List.nil_append, hsplit]
    · obtain ⟨l, ls, hsplit, h⟩ := ih (cur ++ [c]) env
      refine ⟨c :: l, ls, by simp [splitLines, hc, hsplit], ?_⟩
      unfold scanLines
      simp only [hc, if_false, h, List.append_assoc, List.singleton_append]

/-- `loadEnv` on a readable file is the loop over the lines of its content. -/
theorem loadEnv_readable (content : String) :
    loadEnv (.readable content) = loadPieces (splitLines content.data) Env.empty := by
  obtain ⟨l, ls, hsplit, h⟩ := loadScanned_scanLines content.data [] Env.empty
  rw [hsplit]
  rw [List.nil_append] at h
  rw [← h]
  rfl

theorem splitLines_of_no_newline (p : List Char) (h : '\n' ∉ p) : splitLines p = [p] := by
  induction p with
  | nil => rfl
  | cons c t ih =>
    have hc : c ≠ '\n' := fun e => h (e ▸ List.mem_cons_self _ _)
    have ht : '\n' ∉ t := fun m => h (List.mem_cons_of_mem _ m)
    simp [splitLines, hc, ih ht]

theorem splitLines_append (p rest : List Char) (h : '\n' ∉ p) :
    splitLines (p ++ '\n' :: rest) = p :: splitLines rest := by
  induction p with
  | nil => simp [splitLines]
  | cons c t ih =>
    have hc : c ≠ '\n' := fun e => h (e ▸ List.mem_cons_self _ _)
    have ht : '\n' ∉ t := fun m => h (List.mem_cons_of_mem _ m)
    simp [splitLines, hc, ih ht]

theorem splitLines_no_newline (data : List Char) : ∀ p ∈ splitLines data, '\n' ∉ p := by
  induction data with
  | nil => simp [splitLines]
  | cons c rest ih =>
    by_cases hc : c = '\n'
    · subst hc
      intro p hp
      simp only [splitLines, if_true, List.mem_cons] at hp
      rcases hp with rfl | hp
      · simp
      · exact ih p hp
    · cases hs : splitLines rest with
      | nil => exact absurd hs (splitLines_ne_nil rest)
      | cons l ls =>
        intro p hp
        simp only [splitLines, hc, if_false, hs, List.mem_cons] at hp
        rw [hs] at ih
        rcases hp with rfl | hp
        · intro hm
          rcases List.mem_cons.mp hm with e | e
          · exact hc e.symm
          · exact ih l (List.mem_cons_self _ _) e
        · exact ih p (List.mem_cons_of_mem _ hp)

theorem splitLines_joinLines (qs : List (List Char)) (hne : qs ≠ [])
    (h : ∀ q ∈ qs, '\n' ∉ q) : splitLines (joinLines qs) = qs := by
  induction qs with
  | nil => exact absurd rfl hne
  | cons q rest ih =>
    cases rest with
    | nil => exact splitLines_of_no_newline q (h q (List.mem_cons_self _ _))
    | cons q' rest' =>
      rw [joinLines, splitLines_append _ _ (h q (List.mem_cons_self _ _)),
        ih (by simp) (fun x hx => h x (List.mem_cons_of_mem _ hx))]

theorem loadPieces_joinLines (qs : List (List Char)) (h : ∀ q ∈ qs, '\n' ∉ q) (env : Env) :
    loadPieces (splitLines (joinLines qs)) env = loadPieces qs env := by
  cases qs with
  | nil =>
    have h0 : ¬ MaxScanTokenSize ≤ byteLen [] := by decide
    have hl : loadLine env [] = some env := loadLine_ignored env [] (by decide)
    simp [joinLines, splitLines, loadPieces, h0, hl]
  | cons q rest => rw [splitLines_joinLines _ (by simp) h]

/-- Dropping ignored lines that fit the scanner's buffer does not change the load. -/
theorem loadPieces_filter (ps : List (List Char))
    (hshort : ∀ p ∈ ps, isIgnoredLine p = true → byteLen p < MaxScanTokenSize) :
    ∀ env, loadPieces (ps.filter (fun l => !isIgnoredLine l)) env = loadPieces ps env := by
  induction ps with
  | nil => intro env; rfl
  | cons p rest ih =>
    intro env
    have ih' := ih (fun x hx => hshort x (List.mem_cons_of_mem _ hx))
    by_cases hi : isIgnoredLine p = true
    · have hlen : ¬ MaxScanTokenSize ≤ byteLen p :=
        Nat.not_le.mpr (hshort p (List.mem_cons_self _ _) hi)
      simp only [List.filter_cons, hi, Bool.not_true, Bool.false_eq_true, if_false, loadPieces,
        hlen, loadLine_ignored env p hi]
      exact ih' env
    · have hi' : isIgnoredLine p = false := by simpa using hi
      simp only [List.filter_cons, hi', Bool.not_false, if_true, loadPieces]
      split
      · rfl
      · cases loadLine env p with
        | none => rfl
        | some env' => exact ih' env'

theorem byteLen_replicate_hash (n : Nat) : byteLen (List.replicate n '#') = n := by
  induction n with
  | zero => rfl
  | succ n ih =>
    have h1 : Char.utf8Size '#' = 1 := by decide
    simp only [byteLen, List.replicate_succ, List.map_cons, List.sum_cons, h1] at ih ⊢
    omega

theorem isIgnoredLine_replicate_hash (n : Nat) :
    isIgnoredLine (List.replicate (n + 1) '#') = true := by
  have : isCommentLine (List.replicate (n + 1) '#') = true := by
    simp [isCommentLine, List.replicate_succ, isSpace_hash]
  simp [isIgnoredLine, this]

/-- A file that is one line: `loadEnv` runs the loop body once. -/
theorem loadEnv_single_line (text : String) (hnl : '\n' ∉ text.data)
    (hlen : byteLen text.data < MaxScanTokenSize) :
    loadEnv (.readable text) =
      match loadLine Env.empty text.data with
      | none => .panicked
      | some env => .returned env none := by
  rw [loadEnv_readable, splitLines_of_no_newline _ hnl]
  simp only [loadPieces, Nat.not_le.mpr hlen, if_false]

/-! ## Theorems about `loadEnv` -/

/-- C11 as the code has it: when every ignored line (blank, comment, or without '=') is
shorter than the scanner's 65536-byte buffer, `loadEnv` gives the same result on the content
and on the content without its ignored lines, and a file made only of ignored lines gives
the empty mapping and no error. -/
theorem loadEnv_ignored_lines (content : String)
    (hshort : ∀ p ∈ splitLines content.data, isIgnoredLine p = true →
      byteLen p < MaxScanTokenSize) :
    loadEnv (.readable content) = loadEnv (.readable (removeIgnoredLines content)) ∧
      ((∀ p ∈ splitLines content.data, isIgnoredLine p = true) →
        loadEnv (.readable content) = .returned Env.empty none) := by
  have hfilter := loadPieces_filter (splitLines content.data) hshort Env.empty
  constructor
  · rw [loadEnv_readable, loadEnv_readable]
    have hnl : ∀ q ∈ (splitLines content.data).filter (fun l => !isIgnoredLine l), '\n' ∉ q :=
      fun q hq => splitLines_no_newline content.data q (List.mem_of_mem_filter hq)
    show _ = loadPieces (splitLines (joinLines _)) Env.empty
    rw [loadPieces_joinLines _ hnl, hfilter]
  · intro hall
    have hnil : (splitLines content.data).filter (fun l => !isIgnoredLine l) = [] := by
      rw [List.filter_eq_nil_iff]
      intro p hp
      simp [hall p hp]
    rw [loadEnv_readable, ← hfilter, hnil]
    rfl

/-- C11, witness: a config with a comment, blank lines and a line without '='. -/
theorem loadEnv_ignored_lines_witness :
    removeIgnoredLines mixedConfig = "GITHUB_WORK_USER=\"alice\"\nA = b=c \r\nA='d'" ∧
      loadEnv (.readable mixedConfig) =
        loadEnv (.readable "GITHUB_WORK_USER=\"alice\"\nA = b=c \r\nA='d'") ∧
      loadEnv (.readable "# comment\n\n  \t\nFOO\n") = .returned Env.empty none :=
  ⟨by decide, (loadEnv_ignored_lines mixedConfig (by decide)).1,
    (loadEnv_ignored_lines "# comment\n\n  \t\nFOO\n" (by decide)).2 (by decide)⟩

theorem longComment_no_newline : '\n' ∉ longComment.data := by
  intro h
  have := (List.mem_replicate.mp h).2
  exact absurd this (by decide)

theorem longComment_lines : splitLines longComment.data = [List.replicate 65536 '#'] :=
  splitLines_of_no_newline _ longComment_no_newline

theorem loadPieces_too_long (p : List Char) (ps : List (List Char)) (env : Env)
    (h : MaxScanTokenSize ≤ byteLen p) :
    loadPieces (p :: ps) env = .returned env (some .tokenTooLong) := by
  simp only [loadPieces, h, if_true]

theorem loadEnv_longComment :
    loadEnv (.readable longComment) = .returned Env.empty (some .tokenTooLong) := by
  rw [loadEnv_readable, longComment_lines]
  apply loadPieces_too_long
  rw [byteLen_replicate_hash]
  decide

/-- C11, counterexample: a file that is one comment line of 65536 characters does not load
to the empty mapping with no error; the scanner stops with `ErrTooLong`. -/
theorem loadEnv_ignored_lines_counterexample :
    (∀ p ∈ splitLines longComment.data, isIgnoredLine p = true) ∧
      loadEnv (.readable longComment) = .returned Env.empty (some .tokenTooLong) ∧
      loadEnv (.readable longComment) ≠ .returned Env.empty none := by
  refine ⟨?_, loadEnv_longComment, ?_⟩
  · intro p hp
    rw [longComment_lines] at hp
    rw [List.mem_singleton.mp hp]
    exact isIgnoredLine_replicate_hash 65535
  · rw [loadEnv_longComment]
    intro h
    injection h with _ h2
    exact absurd h2 (by simp)

/-- C12: a line `k=qvq`, with `q` a double or a single quote and `k` a well-formed key,
loads `k` with the value `v`, whatever `v` is (one layer of quotes is removed); a line whose
trimmed value is not in quotes stores that trimmed value unchanged.  The same holds for the
file that is this one line. -/
theorem loadEnv_strips_quotes (env : Env) (k v q before after : String)
    (hq : q = "\"" ∨ q = "'") (hk : IsKey k.data)
    (hb : '=' ∉ before.data) (hc : isCommentLine (before ++ "=" ++ after).data = false)
    (hnq : ¬ IsQuoted (TrimSpace after.data)) :
    loadLine env (k ++ "=" ++ q ++ v ++ q).data = some (env.set k v) ∧
      loadLine env (before ++ "=" ++ after).data =
        some (env.set (String.mk (TrimSpace before.data)) (String.mk (TrimSpace after.data))) ∧
      ('\n' ∉ (k ++ "=" ++ q ++ v ++ q).data →
        byteLen (k ++ "=" ++ q ++ v ++ q).data < MaxScanTokenSize →
        loadEnv (.readable (k ++ "=" ++ q ++ v ++ q)) = .returned (Env.empty.set k v) none) := by
  have hquoted : ∀ e : Env, loadLine e (k ++ "=" ++ q ++ v ++ q).data = some (e.set k v) := by
    intro e
    obtain ⟨hk1, hk2, hk3⟩ := hk
    have hq' : ∃ c, (c = dquote ∨ c = squote) ∧ q.data = [c] := by
      rcases hq with rfl | rfl
      · exact ⟨dquote, Or.inl rfl, rfl⟩
      · exact ⟨squote, Or.inr rfl, rfl⟩
    obtain ⟨c, hcq, hqd⟩ := hq'
    have hcs : isSpace c = false := by
      rcases hcq with rfl | rfl
      · exact isSpace_dquote
      · exact isSpace_squote
    have hdata : (k ++ "=" ++ q ++ v ++ q).data = k.data ++ '=' :: (c :: (v.data ++ [c])) := by
      simp [String.data_append, hqd]
    have hcomment : isCommentLine (k.data ++ '=' :: (c :: (v.data ++ [c]))) = false :=
      isCommentLine_key_line _ _ ⟨hk1, hk2, hk3⟩
    have htrim : TrimSpace (c :: (v.data ++ [c])) = c :: (v.data ++ [c]) := by
      rw [TrimSpace_eq, List.dropWhile_cons_of_neg (by simp [hcs]), ← List.cons_append,
        List.rdropWhile_concat_neg _ _ _ (by simp [hcs])]
    rw [hdata, loadLine_split e _ _ hk2 hcomment, htrim, stripQuotes_quoted c v.data hcq, hk1]
  have hplain := loadLine_split env before.data after.data hb
    (by simpa [String.data_append] using hc)
  rw [stripQuotes_of_not_quoted _ hnq] at hplain
  refine ⟨hquoted env, ?_, ?_⟩
  · simpa [String.data_append] using hplain
  · intro hnl hlen
    rw [loadEnv_single_line _ hnl hlen, hquoted Env.empty]

/-- C12, witness: `GITHUB_WORK_USER="alice"` loads `alice`, a doubly quoted value keeps its
inner quotes, and the mismatched `"alice'` is stored unchanged. -/
theorem loadEnv_strips_quotes_witness :
    loadLine Env.empty "GITHUB_WORK_USER=\"alice\"".data =
        some (Env.empty.set "GITHUB_WORK_USER" "alice") ∧
      loadLine Env.empty "K=\"\"alice\"\"".data = some (Env.empty.set "K" "\"alice\"") ∧
      loadLine Env.empty "K = \"alice' ".data = some (Env.empty.set "K" "\"alice'") ∧
      loadEnv (.readable "GITHUB_WORK_USER=\"alice\"") =
        .returned (Env.empty.set "GITHUB_WORK_USER" "alice") none :=
  ⟨(loadEnv_strips_quotes Env.empty "GITHUB_WORK_USER" "alice" "\"" "K " " \"alice' "
      (Or.inl rfl) ⟨by decide, by decide, by decide⟩ (by decide) (by decide)
      (by unfold IsQuoted; decide)).1,
    (loadEnv_strips_quotes Env.empty "K" "\"alice\"" "\"" "K " " \"alice' "
      (Or.inl rfl) ⟨by decide, by decide, by decide⟩ (by decide) (by decide)
      (by unfold IsQuoted; decide)).1,
    (loadEnv_strips_quotes Env.empty "K" "\"alice\"" "\"" "K " " \"alice' "
      (Or.inl rfl) ⟨by decide, by decide, by decide⟩ (by decide) (by decide)
      (by unfold IsQuoted; decide)).2.1,
    (loadEnv_strips_quotes Env.empty "GITHUB_WORK_USER" "alice" "\"" "K " " \"alice' "
      (Or.inl rfl) ⟨by decide, by decide, by decide⟩ (by decide) (by decide)
      (by unfold IsQuoted; decide)).2.2 (by decide) (by decide)⟩

/-- C13: a line that is not a comment is split at its first '=' only: the key is the trimmed
text before it and the value comes from the trimmed text after it, later '=' included, by
the quote stripping (which gives nothing when it panics).  The same holds for the file that
is this one line. -/
theorem loadEnv_splits_on_first_eq (env : Env) (before after : String)
    (hb : '=' ∉ before.data) (hc : isCommentLine (before ++ "=" ++ after).data = false) :
    loadLine env (before ++ "=" ++ after).data =
        (stripQuotes (TrimSpace after.data)).map
          (fun value => env.set (String.mk (TrimSpace before.data)) (String.mk value)) ∧
      ('\n' ∉ (before ++ "=" ++ after).data →
        byteLen (before ++ "=" ++ after).data < MaxScanTokenSize →
        loadEnv (.readable (before ++ "=" ++ after)) =
          match stripQuotes (TrimSpace after.data) with
          | none => .panicked
          | some value =>
            .returned (Env.empty.set (String.mk (TrimSpace before.data)) (String.mk value))
              none) := by
  have hdata : (before ++ "=" ++ after).data = before.data ++ '=' :: after.data := by
    simp [String.data_append]
  rw [hdata] at hc
  have hsplit : ∀ e : Env, loadLine e (before ++ "=" ++ after).data =
      (stripQuotes (TrimSpace after.data)).map
        (fun value => e.set (String.mk (TrimSpace before.data)) (String.mk value)) := by
    intro e
    rw [hdata, loadLine_split e _ _ hb hc]
    cases stripQuotes (TrimSpace after.data) <;> rfl
  refine ⟨hsplit env, ?_⟩
  intro hnl hlen
  rw [loadEnv_single_line _ hnl hlen, hsplit Env.empty]
  cases stripQuotes (TrimSpace after.data) <;> rfl

/-- C13, witness: the line `A = b=c ` loads the key `A` with the value `b=c`. -/
theorem loadEnv_splits_on_first_eq_witness :
    loadLine Env.empty "A = b=c ".data = some (Env.empty.set "A" "b=c") ∧
      loadEnv (.readable "A = b=c ") = .returned (Env.empty.set "A" "b=c") none :=
  ⟨(loadEnv_splits_on_first_eq Env.empty "A " " b=c " (by decide) (by decide)).1,
    (loadEnv_splits_on_first_eq Env.empty "A " " b=c " (by decide) (by decide)).2
      (by decide) (by decide)⟩

/-- What a load that returns without error has in the mapping: for each key the value of
the last line with an entry for it, or the old value when no line has one. -/
theorem loadPieces_lookup (ps : List (List Char)) :
    ∀ env env', loadPieces ps env = .returned env' none →
      ∀ k, env' k = (List.lookup k (ps.filterMap lineEntry).reverse).or (env k) := by
  induction ps with
  | nil =>
    intro env env' h k
    simp only [loadPieces] at h
    injection h with h1 _
    simp [h1]
  | cons p rest ih =>
    intro env env' h k
    simp only [loadPieces] at h
    split at h
    · injection h with _ h2
      exact absurd h2 (by simp)
    · cases hl : loadLine env p with
      | none =>
        rw [hl] at h
        exact absurd h (by simp)
      | some e1 =>
        rw [hl] at h
        have hih := ih e1 env' h k
        have he1 : e1 = (match lineEntry p with
            | some (key, value) => env.set key value
            | none => env) := by
          rcases loadLine_lineEntry env p with h0 | h0
          · rw [hl] at h0
            exact absurd h0 (by simp)
          · rw [hl] at h0
            exact Option.some.inj h0
        rw [hih, List.filterMap_cons]
        cases hentry : lineEntry p with
        | none =>
          rw [hentry] at he1
          simp only [he1]
        | some kv =>
          obtain ⟨key, value⟩ := kv
          rw [hentry] at he1
          simp only [he1, List.reverse_cons, List.lookup_append, Option.or_assoc]
          congr 1
          by_cases hk : k = key
          · subst hk
            simp [Env.set, List.lookup]
          · have : (k == key) = false := by simpa using hk
            simp [Env.set, List.lookup, hk, this]

/-- C14 as the code has it: when `loadEnv` returns without error, the value of each key is
the value of the last line of the file that has an entry for it: the mapping is the lookup
in the entries of the lines read from the last to the first, a line with an entry for `k`
that no later line overrides gives the value of `k`, and every key with an entry on some
line is present. -/
theorem loadEnv_last_wins (content : String) (env : Env)
    (hload : loadEnv (.readable content) = .returned env none) :
    (∀ k, env k = List.lookup k ((splitLines content.data).filterMap lineEntry).reverse) ∧
      (∀ pre l post k v, splitLines content.data = pre ++ l :: post →
        lineEntry l = some (k, v) → (∀ l' ∈ post, ∀ v', lineEntry l' ≠ some (k, v')) →
        env k = some v) ∧
      (∀ l ∈ splitLines content.data, ∀ k v, lineEntry l = some (k, v) →
        (env k).isSome = true) := by
  rw [loadEnv_readable] at hload
  have hlookup : ∀ k, env k =
      List.lookup k ((splitLines content.data).filterMap lineEntry).reverse := by
    intro k
    rw [loadPieces_lookup _ _ _ hload k]
    simp [Env.empty]
  refine ⟨hlookup, ?_, ?_⟩
  · intro pre l post k v hsplit hentry hpost
    rw [hlookup k, hsplit, List.filterMap_append, List.filterMap_cons, hentry,
      List.reverse_append, List.reverse_cons, List.append_assoc, List.lookup_append,
      List.singleton_append]
    have hnone : List.lookup k (post.filterMap lineEntry).reverse = none := by
      rw [List.lookup_eq_none_iff]
      intro p hp
      obtain ⟨l', hl', he⟩ := List.mem_filterMap.mp (List.mem_reverse.mp hp)
      have hne : p.1 ≠ k := by
        intro hk
        apply hpost l' hl' p.2
        rw [he, ← hk]
      exact bne_iff_ne.mpr (fun h => hne h.symm)
    rw [hnone, Option.none_or, List.lookup_cons_self]
  · intro l hl k v hentry
    rw [hlookup k, List.lookup_isSome_iff]
    exact ⟨(k, v), List.mem_reverse.mpr (List.mem_filterMap.mpr ⟨l, hl, hentry⟩), by simp⟩

/-- C14, witness: in `mixedConfig` the key `A` is assigned `b=c` and later `d`; the loaded
value is `d`, and the key assigned once is present. -/
theorem loadEnv_last_wins_witness :
    loadEnv (.readable mixedConfig) = .returned mixedEnv none ∧
      mixedEnv "A" = some "d" ∧ (mixedEnv "GITHUB_WORK_USER").isSome = true :=
  ⟨rfl,
    (loadEnv_last_wins mixedConfig mixedEnv rfl).2.1
      ["# comment".data, [], "  \t".data, "FOO".data, "GITHUB_WORK_USER=\"alice\"".data,
        "A = b=c \r".data]
      "A='d'".data ["   # x=y".data, []] "A" "d" (by decide) (by decide)
      (fun l' hl' v' h => by
        have hn : ∀ x ∈ ["   # x=y".data, []], lineEntry x = none := by decide
        rw [hn l' hl'] at h
        exact absurd h (by simp)),
    (loadEnv_last_wins mixedConfig mixedEnv rfl).2.2 "GITHUB_WORK_USER=\"alice\"".data
      (by decide) "GITHUB_WORK_USER" "alice" (by decide)⟩

/-- C15: when `.secure-git.env` exists in the working directory it is the file handed to
`loadEnv` and the run does not depend on the file next to the executable; when it does not
exist the file next to the executable is handed to `loadEnv`; when neither can be opened the
run exits 1 with nothing on standard output. -/
theorem config_location_policy (r : Run) :
    (r.cwdEnvFile ≠ .absent →
        envFile r = r.cwdEnvFile ∧ ∀ other, main { r with exeEnvFile := other } = main r) ∧
      (r.cwdEnvFile = .absent → envFile r = r.exeEnvFile) ∧
      ((r.cwdEnvFile = .absent ∨ r.cwdEnvFile = .unreadable) →
        (r.exeEnvFile = .absent ∨ r.exeEnvFile = .unreadable) → main r = .exit 1 "") := by
  refine ⟨?_, ?_, ?_⟩
  · intro h
    have he : envFile r = r.cwdEnvFile := by simp [envFile, h]
    refine ⟨he, ?_⟩
    intro other
    have he' : envFile { r with exeEnvFile := other } = envFile r := by
      simp [envFile, h]
    simp only [main, he']
  · intro h
    simp [envFile, h]
  · intro h1 h2
    have hload : loadEnv (envFile r) = .returned Env.empty (some .openFailed) := by
      rcases h1 with h1 | h1 <;> rcases h2 with h2 | h2 <;> simp [envFile, h1, h2, loadEnv]
    unfold main
    split
    · rfl
    · split
      · rfl
      · split
        · rw [hload]
        · rfl

/-- C15, witness: with a config in the working directory the account of that file is
used, whatever is next to the executable; without it the file next to the executable is
used; with neither the run exits 1. -/
theorem config_location_policy_witness :
    main ⟨false, true, ["Hello-World"], .readable sampleConfig, .readable emptyValuesConfig⟩ =
        .exit 0 "https://wtok@github.com/alice/Hello-World.git\n" ∧
      main ⟨false, true, ["Hello-World"], .absent, .readable sampleConfig⟩ =
        .exit 0 "https://wtok@github.com/alice/Hello-World.git\n" ∧
      main ⟨false, true, ["Hello-World"], .absent, .unreadable⟩ = .exit 1 "" :=
  ⟨(((config_location_policy
        ⟨false, true, ["Hello-World"], .readable sampleConfig, .absent⟩).1 (by decide)).2
        (.readable emptyValuesConfig)).trans (by decide),
    by decide,
    (config_location_policy ⟨false, true, ["Hello-World"], .absent, .unreadable⟩).2.2
      (Or.inl rfl) (Or.inr rfl)⟩

/-- The loop body panics on a line exactly when the trimmed text after its first '=' is one
quote character. -/
theorem loadLine_panics_iff (env : Env) (before after : List Char) (hb : '=' ∉ before)
    (hc : isCommentLine (before ++ '=' :: after) = false) :
    loadLine env (before ++ '=' :: after) = none ↔
      TrimSpace after = [dquote] ∨ TrimSpace after = [squote] := by
  rw [loadLine_split env _ _ hb hc, ← stripQuotes_eq_none_iff]
  cases stripQuotes (TrimSpace after) <;> simp

/-- C16, the failing input: on a file whose line is `K="` or `K='` the slice
`value[1 : len(value)-1]` is `value[1:0]`, out of range, and `loadEnv` panics instead of
returning a mapping or an error. -/
theorem loadEnv_panics_on_lone_quote :
    stripQuotes [dquote] = none ∧ goSlice [dquote] 1 ([dquote].length - 1) = none ∧
      loadEnv (.readable "K=\"") = .panicked ∧ loadEnv (.readable "K='") = .panicked ∧
      loadEnv (.readable "A=1\nK = \" \nB=2\n") = .panicked :=
  ⟨by decide, by decide, rfl, rfl, rfl⟩

/-- C19: the account validation looks at presence only: when the four keys are present,
with any values, the empty string included, `loadAccountConfig` succeeds with these values
and a run with one flag and one argument exits 0 printing the URL made of them; a line
`KEY=` is what gives a key the empty value. -/
theorem empty_values_accepted (r : Run) (arg : String) (env : Env)
    (personalUser personalToken workUser workToken key : String)
    (hflags : r.personalAccountFlag ≠ r.workAccountFlag)
    (hargs : r.args = [arg])
    (hload : loadEnv (envFile r) = .returned env none)
    (hpu : env "GITHUB_PERSONAL_USER" = some personalUser)
    (hpt : env "GITHUB_PERSONAL_TOKEN" = some personalToken)
    (hwu : env "GITHUB_WORK_USER" = some workUser)
    (hwt : env "GITHUB_WORK_TOKEN" = some workToken)
    (hkey : IsKey key.data) :
    loadAccountConfig env = .ok
        { WorkAccount := { Username := workUser, Token := workToken },
          PersonalAccount := { Username := personalUser, Token := personalToken } } ∧
      main r = .exit 0 (repoURL (if r.workAccountFlag then workToken else personalToken)
        (if r.workAccountFlag then workUser else personalUser) (parseRepoName arg) ++ "\n") ∧
      (∀ e : Env, loadLine e (key ++ "=").data = some (e.set key "")) := by
  have hcfg : loadAccountConfig env = .ok
      { WorkAccount := { Username := workUser, Token := workToken },
        PersonalAccount := { Username := personalUser, Token := personalToken } } := by
    simp [loadAccountConfig, hpu, hpt, hwu, hwt]
  refine ⟨hcfg, ?_, ?_⟩
  · cases hp : r.personalAccountFlag <;> cases hw : r.workAccountFlag
    · exact absurd (hp.trans hw.symm) hflags
    · simp [main, hp, hw, hargs, hload, hcfg]
    · simp [main, hp, hw, hargs, hload, hcfg]
    · exact absurd (hp.trans hw.symm) hflags
  · obtain ⟨hk1, hk2, hk3⟩ := hkey
    have hdata : (key ++ "=").data = key.data ++ '=' :: [] := by
      simp [String.data_append]
    have hcomment : isCommentLine (key.data ++ '=' :: []) = false :=
      isCommentLine_key_line _ _ ⟨hk1, hk2, hk3⟩
    intro e
    rw [hdata, loadLine_split e _ _ hk2 hcomment, hk1]
    rfl

/-- C19, witness: a config in which every required key has the empty value; the run with
`-p` exits 0 and prints a URL with empty token and user name. -/
theorem empty_values_accepted_witness :
    loadEnv (.readable emptyValuesConfig) = .returned emptyValuesEnv none ∧
      main ⟨true, false, ["Hello-World"], .readable emptyValuesConfig, .absent⟩ =
        .exit 0 "https://@github.com//Hello-World.git\n" ∧
      loadLine Env.empty "GITHUB_WORK_TOKEN=".data =
        some (Env.empty.set "GITHUB_WORK_TOKEN" "") :=
  ⟨rfl,
    ((empty_values_accepted ⟨true, false, ["Hello-World"], .readable emptyValuesConfig, .absent⟩
      "Hello-World" emptyValuesEnv "" "" "" "" "GITHUB_WORK_TOKEN" (by decide) rfl rfl rfl rfl
      rfl rfl ⟨by decide, by decide, by decide⟩).2.1).trans (by decide),
    (empty_values_accepted ⟨true, false, ["Hello-World"], .readable emptyValuesConfig, .absent⟩
      "Hello-World" emptyValuesEnv "" "" "" "" "GITHUB_WORK_TOKEN" (by decide) rfl rfl rfl rfl
      rfl rfl ⟨by decide, by decide, by decide⟩).2.2 Env.empty⟩

/-! ## The shape of what `parseRepoName` returns -/

/-- When a pattern matched, the returned group is the repo segment of a match at a suffix
of the input. -/
theorem parseRepoName_group (input : String) :
    (httpRegex.find input.data = [] ∧ sshRegex.find input.data = [] ∧
        parseRepoName input = input) ∨
      ∃ t cap, t <:+ input.data ∧ IsRepoTail t cap ∧ parseRepoName input = String.mk cap := by
  rcases parseRepoName_cases input with h | ⟨t, cap, hsuf, hm, h⟩ | ⟨_, t, cap, hsuf, hm, h⟩
  · exact Or.inl h
  · obtain ⟨t', ht', h'⟩ := match_tail hsuf (Or.inl hm)
    exact Or.inr ⟨t', cap, ht', h', h⟩
  · obtain ⟨t', ht', h'⟩ := match_tail hsuf (Or.inr hm)
    exact Or.inr ⟨t', cap, ht', h', h⟩

/-- No pattern matches inside a text without '/'. -/
theorem no_match_of_no_slash {s : List Char} (h : '/' ∉ s) :
    ∀ t cap, t <:+ s → ¬ IsHttpMatch t cap ∧ ¬ IsSshMatch t cap := by
  have key : ∀ t cap, t <:+ s → ¬ (IsHttpMatch t cap ∨ IsSshMatch t cap) := by
    intro t cap hsuf hm
    obtain ⟨t', ht', o, g, rfl, _⟩ := match_tail hsuf hm
    exact h (ht'.subset (by simp))
  intro t cap hsuf
  exact ⟨fun hm => key t cap hsuf (Or.inl hm), fun hm => key t cap hsuf (Or.inr hm)⟩

/-- C17: `parseRepoName` is idempotent. -/
theorem parseRepoName_idempotent (s : String) :
    parseRepoName (parseRepoName s) = parseRepoName s := by
  rcases parseRepoName_group s with ⟨_, _, h⟩ | ⟨t, cap, _, htail, h⟩
  · rw [h]
    exact h
  · rw [h]
    obtain ⟨o, g, _, _, _, _, hc, _, _⟩ := htail
    exact parseRepoName_eq_self_of_no_match (no_match_of_no_slash hc)

/-- C18: either no pattern matched and the input is returned, or the result is a non-empty
text without '/' and '.', and the input ends with a '/', the result and an optional `.git`,
with no '/' after that one. -/
theorem parseRepoName_shape (s : String) :
    (httpRegex.FindStringSubmatch s = [] ∧ sshRegex.FindStringSubmatch s = [] ∧
        parseRepoName s = s) ∨
      (parseRepoName s ≠ "" ∧ '/' ∉ (parseRepoName s).data ∧ '.' ∉ (parseRepoName s).data ∧
        ∃ X g : String, (g = "" ∨ g = ".git") ∧ s = X ++ "/" ++ parseRepoName s ++ g ∧
          '/' ∉ (parseRepoName s ++ g).data) := by
  rcases parseRepoName_group s with ⟨h1, h2, h⟩ | ⟨t, cap, hsuf, htail, h⟩
  · left
    exact ⟨by simp only [Regex.FindStringSubmatch, h1, List.map_nil],
      by simp only [Regex.FindStringSubmatch, h2, List.map_nil], h⟩
  · right
    obtain ⟨o, g, rfl, _, _, hcne, hc1, hc2, hg⟩ := htail
    obtain ⟨pre, hpre⟩ := hsuf
    rw [h]
    refine ⟨?_, hc1, hc2, String.mk (pre ++ o), String.mk g, ?_, ?_, ?_⟩
    · intro he
      apply hcne
      simpa using congrArg String.data he
    · rcases hg with rfl | rfl
      · exact Or.inl rfl
      · exact Or.inr rfl
    · apply String.ext
      simp [String.data_append, ← hpre]
    · rcases hg with rfl | rfl
      · simpa [String.data_append] using hc1
      · simpa [String.data_append] using hc1

/-! ## `flag.Parse` and the whole of `main` -/

theorem flagSet_error (name : List Char) (p w : Bool) (status : Nat)
    (h : flagSet name p w = .error status) : status = 0 ∨ status = 2 := by
  unfold flagSet at h
  split at h
  · injection h with h
    exact Or.inr h.symm
  · split at h
    · injection h with h
      exact Or.inr h.symm
    · simp only at h
      split at h
      · split at h
        · exact absurd h (by simp)
        · split at h
          · exact absurd h (by simp)
          · injection h with h
            exact Or.inr h.symm
      · split at h
        · split at h
          · exact absurd h (by simp)
          · split at h
            · exact absurd h (by simp)
            · injection h with h
              exact Or.inr h.symm
        · split at h
          · injection h with h
            exact Or.inl h.symm
          · injection h with h
            exact Or.inr h.symm

/-- The exits inside `flag.Parse` have status 0 or 2. -/
theorem flagParseFrom_exited (argv : List String) :
    ∀ (p w : Bool) (status : Nat), flagParseFrom argv p w = .exited status →
      status = 0 ∨ status = 2 := by
  induction argv with
  | nil =>
    intro p w status h
    simp [flagParseFrom] at h
  | cons s rest ih =>
    intro p w status h
    unfold flagParseFrom at h
    split at h
    · next c cs _ =>
      by_cases hdd : c = '-' ∧ cs = []
      · rw [if_pos hdd] at h
        exact absurd h (by simp)
      · rw [if_neg hdd] at h
        cases hset : flagSet (if c = '-' then cs else c :: cs) p w with
        | error st =>
          rw [hset] at h
          injection h with h
          subst h
          exact flagSet_error _ _ _ _ hset
        | ok flags =>
          rw [hset] at h
          exact ih _ _ _ h
    · exact absurd h (by simp)

theorem program_of_returned {argv : List String} {p w : Bool} {args : List String}
    (h : flagParse argv = .returned p w args) (cwd exe : FileState) :
    program argv cwd exe = main ⟨p, w, args, cwd, exe⟩ := by
  simp only [program, h]

theorem program_of_exited {argv : List String} {status : Nat}
    (h : flagParse argv = .exited status) (cwd exe : FileState) :
    program argv cwd exe = .exit status "" := by
  simp only [program, h]

/-- C2 as the code has it: on every command line on which `flag.Parse` returns, with both
flags set or neither, the program exits 1 with nothing on standard output, whatever the
positional arguments and the config files; on the other command lines the process ends
inside `flag.Parse`, with status 0 or 2 and nothing on standard output. -/
theorem program_flag_error (argv : List String) (cwd exe : FileState) :
    (∀ p w args, flagParse argv = .returned p w args →
        (p = true ∧ w = true) ∨ (p = false ∧ w = false) →
        program argv cwd exe = .exit 1 "") ∧
      (∀ status, flagParse argv = .exited status →
        (status = 0 ∨ status = 2) ∧ program argv cwd exe = .exit status "") := by
  constructor
  · intro p w args hparse hflags
    rw [program_of_returned hparse]
    exact main_exit1_of_flags _ hflags
  · intro status hparse
    exact ⟨flagParseFrom_exited argv false false status hparse, program_of_exited hparse _ _⟩

/-- C2, witness: both flags, and no flag, with a valid argument and a complete config. -/
theorem program_flag_error_witness :
    program ["-p", "-w", "Hello-World"] (.readable sampleConfig) .absent = .exit 1 "" ∧
      program ["Hello-World"] (.readable sampleConfig) .absent = .exit 1 "" ∧
      program ["-p", "-w=false", "--", "-w"] (.readable sampleConfig) .absent =
        .exit 0 "https://ptok@github.com/bob/-w.git\n" :=
  ⟨(program_flag_error ["-p", "-w", "Hello-World"] (.readable sampleConfig) .absent).1
      true true ["Hello-World"] (by decide) (Or.inl ⟨rfl, rfl⟩),
    (program_flag_error ["Hello-World"] (.readable sampleConfig) .absent).1
      false false ["Hello-World"] (by decide) (Or.inr ⟨rfl, rfl⟩),
    by decide⟩

/-- C2, counterexample: the command lines `-h` and `-x Hello-World` set neither `-p` nor
`-w`, and the program exits with status 0 and 2, not 1. -/
theorem program_flag_error_counterexample :
    program ["-h"] (.readable sampleConfig) .absent = .exit 0 "" ∧
      program ["-x", "Hello-World"] (.readable sampleConfig) .absent = .exit 2 "" := by
  decide

/-- C3 as the code has it: on every command line on which `flag.Parse` returns, with no
positional argument or two or more, the program exits 1 with nothing on standard output,
whatever the flags and the config files; on the other command lines the process ends inside
`flag.Parse`, with status 0 or 2 and nothing on standard output. -/
theorem program_arg_count_error (argv : List String) (cwd exe : FileState) :
    (∀ p w args, flagParse argv = .returned p w args →
        args.length = 0 ∨ 2 ≤ args.length →
        program argv cwd exe = .exit 1 "") ∧
      (∀ status, flagParse argv = .exited status →
        (status = 0 ∨ status = 2) ∧ program argv cwd exe = .exit status "") := by
  constructor
  · intro p w args hparse hcount
    rw [program_of_returned hparse]
    exact main_exit1_of_arg_count _ hcount
  · intro status hparse
    exact ⟨flagParseFrom_exited argv false false status hparse, program_of_exited hparse _ _⟩

/-- C3, witness: `-p` with two positional arguments, and with none; the config file is one
on which `loadEnv` would panic, and the run still exits 1. -/
theorem program_arg_count_error_witness :
    program ["-p", "Hello-World", "Other"] (.readable "K=\"") .absent = .exit 1 "" ∧
      program ["-p"] (.readable "K=\"") .absent = .exit 1 "" :=
  ⟨(program_arg_count_error ["-p", "Hello-World", "Other"] (.readable "K=\"") .absent).1
      true false ["Hello-World", "Other"] (by decide) (Or.inr (by decide)),
    (program_arg_count_error ["-p"] (.readable "K=\"") .absent).1
      true false [] (by decide) (Or.inl rfl)⟩

/-- C3, counterexample: the command line `-help` has no positional argument and the
program exits 0; `-p -x a b` has an undefined flag before its two arguments and the program
exits 2. -/
theorem program_arg_count_error_counterexample :
    program ["-help"] (.readable sampleConfig) .absent = .exit 0 "" ∧
      program ["-p", "-x", "a", "b"] (.readable sampleConfig) .absent = .exit 2 "" := by
  decide

/-! ## The printed line -/

theorem stripQuotes_sublist {value v : List Char} (h : stripQuotes value = some v) :
    List.Sublist v value := by
  unfold stripQuotes at h
  split at h
  · unfold goSlice at h
    split at h
    · injection h with h
      rw [← h]
      exact (List.drop_sublist _ _).trans (List.take_sublist _ _)
    · exact absurd h (by simp)
  · injection h with h
    rw [h]

/-- The value of an entry is part of its line. -/
theorem lineEntry_value_sublist {line : List Char} {k v : String}
    (h : lineEntry line = some (k, v)) : List.Sublist v.data line := by
  unfold lineEntry at h
  split at h
  · exact absurd h (by simp)
  · split at h
    · exact absurd h (by simp)
    · next value hs =>
      injection h with h
      injection h with _ hv
      rw [← hv]
      exact (stripQuotes_sublist hs).trans ((TrimSpace_sublist _).trans
        ((List.drop_sublist _ _).trans (List.dropWhile_sublist _)))

/-- A value that `loadEnv` returns without error has no newline character in it. -/
theorem loadEnv_value_no_newline {file : FileState} {env : Env} {k v : String}
    (hload : loadEnv file = .returned env none) (hk : env k = some v) : '\n' ∉ v.data := by
  cases file with
  | absent =>
    simp only [loadEnv] at hload
    injection hload with _ h2
    exact absurd h2 (by simp)
  | unreadable =>
    simp only [loadEnv] at hload
    injection hload with _ h2
    exact absurd h2 (by simp)
  | readable content =>
    rw [loadEnv_readable] at hload
    have hlook := loadPieces_lookup _ _ _ hload k
    rw [hk] at hlook
    have hsome : List.lookup k ((splitLines content.data).filterMap lineEntry).reverse =
        some v := by
      cases hl : List.lookup k ((splitLines content.data).filterMap lineEntry).reverse with
      | none =>
        rw [hl] at hlook
        simp [Env.empty] at hlook
      | some v' =>
        rw [hl] at hlook
        simp only [Option.or_some] at hlook
        rw [hlook]
    obtain ⟨l₁, l₂, hsplit, _⟩ := List.lookup_eq_some_iff.mp hsome
    have hmem : (k, v) ∈ ((splitLines content.data).filterMap lineEntry).reverse := by
      rw [hsplit]
      simp
    obtain ⟨line, hline, hentry⟩ := List.mem_filterMap.mp (List.mem_reverse.mp hmem)
    intro hnl
    exact splitLines_no_newline content.data line hline
      ((lineEntry_value_sublist hentry).subset hnl)

/-- The result of `parseRepoName` has a newline character only when its input has one. -/
theorem parseRepoName_no_newline (arg : String) (h : '\n' ∉ arg.data) :
    '\n' ∉ (parseRepoName arg).data := by
  rcases parseRepoName_group arg with ⟨_, _, he⟩ | ⟨t, cap, hsuf, htail, he⟩
  · rw [he]
    exact h
  · rw [he]
    obtain ⟨o, g, rfl, _⟩ := htail
    intro hm
    exact h (hsuf.subset (by simp [hm]))

/-- C1 as the code has it: with exactly one of `-p`/`-w`, exactly one positional argument and
a mapping loaded without error that has the four required keys, the run exits 0 and standard
output is `https://TOKEN@github.com/USER/REPO.git` followed by one newline, with the account
the flag selects and `REPO = parseRepoName arg`; this text is one line exactly when `REPO`
has no newline character in it, which is so whenever `arg` has none. -/
theorem main_prints_url (r : Run) (arg : String) (env : Env)
    (personalUser personalToken workUser workToken : String)
    (hflags : r.personalAccountFlag ≠ r.workAccountFlag)
    (hargs : r.args = [arg])
    (hload : loadEnv (envFile r) = .returned env none)
    (hpu : env "GITHUB_PERSONAL_USER" = some personalUser)
    (hpt : env "GITHUB_PERSONAL_TOKEN" = some personalToken)
    (hwu : env "GITHUB_WORK_USER" = some workUser)
    (hwt : env "GITHUB_WORK_TOKEN" = some workToken) :
    main r = .exit 0 ("https://" ++ (if r.workAccountFlag then workToken else personalToken) ++
        "@github.com/" ++ (if r.workAccountFlag then workUser else personalUser) ++ "/" ++
        parseRepoName arg ++ ".git" ++ "\n") ∧
      ('\n' ∉ ("https://" ++ (if r.workAccountFlag then workToken else personalToken) ++
          "@github.com/" ++ (if r.workAccountFlag then workUser else personalUser) ++ "/" ++
          parseRepoName arg ++ ".git").data ↔ '\n' ∉ (parseRepoName arg).data) ∧
      ('\n' ∉ arg.data →
        '\n' ∉ ("https://" ++ (if r.workAccountFlag then workToken else personalToken) ++
          "@github.com/" ++ (if r.workAccountFlag then workUser else personalUser) ++ "/" ++
          parseRepoName arg ++ ".git").data) := by
  have hcfg : loadAccountConfig env = .ok
      { WorkAccount := { Username := workUser, Token := workToken },
        PersonalAccount := { Username := personalUser, Token := personalToken } } := by
    simp [loadAccountConfig, hpu, hpt, hwu, hwt]
  have hmain : main r = .exit 0 ("https://" ++
      (if r.workAccountFlag then workToken else personalToken) ++
      "@github.com/" ++ (if r.workAccountFlag then workUser else personalUser) ++ "/" ++
      parseRepoName arg ++ ".git" ++ "\n") := by
    cases hp : r.personalAccountFlag <;> cases hw : r.workAccountFlag
    · exact absurd (hp.trans hw.symm) hflags
    · simp [main, hp, hw, hargs, hload, hcfg, repoURL]
    · simp [main, hp, hw, hargs, hload, hcfg, repoURL]
    · exact absurd (hp.trans hw.symm) hflags
  have htoken : '\n' ∉ (if r.workAccountFlag then workToken else personalToken).data := by
    split
    · exact loadEnv_value_no_newline hload hwt
    · exact loadEnv_value_no_newline hload hpt
  have huser : '\n' ∉ (if r.workAccountFlag then workUser else personalUser).data := by
    split
    · exact loadEnv_value_no_newline hload hwu
    · exact loadEnv_value_no_newline hload hpu
  have hiff : '\n' ∉ ("https://" ++ (if r.workAccountFlag then workToken else personalToken) ++
      "@github.com/" ++ (if r.workAccountFlag then workUser else personalUser) ++ "/" ++
      parseRepoName arg ++ ".git").data ↔ '\n' ∉ (parseRepoName arg).data := by
    generalize (if r.workAccountFlag then workToken else personalToken) = token at htoken ⊢
    generalize (if r.workAccountFlag then workUser else personalUser) = user at huser ⊢
    simp [String.data_append, htoken, huser]
  exact ⟨hmain, hiff, fun h => hiff.mpr (parseRepoName_no_newline arg h)⟩

/-- C1, witness: `-w` with an SSH URL and the sample config in the working directory; the
output is one line. -/
theorem main_prints_url_witness :
    main ⟨false, true, ["git@github.com:octocat/Hello-World.git"], .readable sampleConfig,
        .absent⟩ =
      .exit 0 "https://wtok@github.com/alice/Hello-World.git\n" ∧
      '\n' ∉ "https://wtok@github.com/alice/Hello-World.git".data :=
  ⟨((main_prints_url ⟨false, true, ["git@github.com:octocat/Hello-World.git"],
      .readable sampleConfig, .absent⟩ "git@github.com:octocat/Hello-World.git" sampleEnv
      "bob" "ptok" "alice" "wtok" (by decide) rfl rfl rfl rfl rfl rfl).1).trans (by decide),
    by decide⟩

/-- C1, counterexample: with `-p`, the one argument `a`, newline, `b` and a complete config
the run exits 0 and standard output is two lines, the URL being broken by the newline of the
argument. -/
theorem main_prints_url_counterexample :
    main ⟨true, false, ["a\nb"], .readable sampleConfig, .absent⟩ =
        .exit 0 "https://ptok@github.com/bob/a\nb.git\n" ∧
      ¬ ∃ line : String, '\n' ∉ line.data ∧
        main ⟨true, false, ["a\nb"], .readable sampleConfig, .absent⟩ =
          .exit 0 (line ++ "\n") := by
  have hmain : main ⟨true, false, ["a\nb"], .readable sampleConfig, .absent⟩ =
      .exit 0 "https://ptok@github.com/bob/a\nb.git\n" := by decide
  refine ⟨hmain, ?_⟩
  rintro ⟨line, hnl, h⟩
  rw [hmain] at h
  injection h with _ h
  have hcount := congrArg (fun s : String => s.data.count '\n') h
  simp only [String.data_append, List.count_append, List.count_eq_zero_of_not_mem hnl] at hcount
  revert hcount
  decide

/-! ## A line that does not fit the scanner's buffer -/

theorem byteLen_replicate_x (n : Nat) : byteLen (List.replicate n 'x') = n := by
  induction n with
  | zero => rfl
  | succ n ih =>
    have h1 : Char.utf8Size 'x' = 1 := by decide
    simp only [byteLen, List.replicate_succ, List.map_cons, List.sum_cons, h1] at ih ⊢
    omega

theorem loadPieces_cons_ok (p : List Char) (ps : List (List Char)) (env env' : Env)
    (hlen : byteLen p < MaxScanTokenSize) (hline : loadLine env p = some env') :
    loadPieces (p :: ps) env = loadPieces ps env' := by
  simp only [loadPieces, Nat.not_le.mpr hlen, if_false, hline]

theorem longLine_no_newline : '\n' ∉ List.replicate 65536 'x' := by
  intro h
  have := (List.mem_replicate.mp h).2
  exact absurd this (by decide)

theorem longLineConfig_lines :
    splitLines longLineConfig.data =
      ["A=1".data, List.replicate 65536 'x', "A=2".data, "B=3".data] := by
  have h1 : '\n' ∉ "A=1".data := by decide
  have h2 : '\n' ∉ "A=2".data := by decide
  have h3 : '\n' ∉ "B=3".data := by decide
  show splitLines ("A=1".data ++ '\n' :: (List.replicate 65536 'x' ++
    '\n' :: ("A=2".data ++ '\n' :: "B=3".data))) = _
  rw [splitLines_append _ _ h1, splitLines_append _ _ longLine_no_newline,
    splitLines_append _ _ h2, splitLines_of_no_newline _ h3]

theorem loadEnv_longLineConfig :
    loadEnv (.readable longLineConfig) =
      .returned (Env.empty.set "A" "1") (some .tokenTooLong) := by
  rw [loadEnv_readable, longLineConfig_lines,
    loadPieces_cons_ok "A=1".data _ Env.empty (Env.empty.set "A" "1") (by decide) rfl]
  apply loadPieces_too_long
  rw [byteLen_replicate_x]
  decide

/-- C14, counterexample: in a file with the lines `A=1`, a line of 65536 characters, `A=2`
and `B=3`, the last line with an entry for `A` is `A=2` and `B` has an entry, yet `loadEnv`
returns the mapping with `A` at `1` and without `B` (and `ErrTooLong`). -/
theorem loadEnv_last_wins_counterexample :
    splitLines longLineConfig.data =
        ["A=1".data, List.replicate 65536 'x', "A=2".data, "B=3".data] ∧
      lineEntry "A=2".data = some ("A", "2") ∧ lineEntry "B=3".data = some ("B", "3") ∧
      loadEnv (.readable longLineConfig) =
        .returned (Env.empty.set "A" "1") (some .tokenTooLong) ∧
      (Env.empty.set "A" "1") "A" = some "1" ∧ (Env.empty.set "A" "1") "B" = none :=
  ⟨longLineConfig_lines, by decide, by decide, loadEnv_longLineConfig, by decide, by decide⟩

end SecureGit
